import Mathlib

/-!
Shallow embedding of the `community_ext` community-detection library
(files `community_ext/community_ext.py` and `community_ext/community_status.py`).

Conventions of the embedding:
* Node labels and community labels are integers (`ℤ`); the sentinel
  community used while a node is parked during a move is `-1`, as in the source.
* Python dictionaries are association lists (`Dict α β`) with first-match
  lookup (`dget`, with an explicit default mirroring `dict.get(k, d)`) and
  in-place first-match update (`dset`, appending when the key is absent),
  which is exactly the observable behaviour of a Python dict for the
  operations the source performs.
* Floating point numbers are modelled as exact rationals (`ℚ`).  Calls to
  `math.log` are modelled by an arbitrary function `rlog : ℚ → ℚ` passed as a
  parameter; every theorem below that touches a code path containing a `log`
  holds for an arbitrary `rlog`.  The one claim whose truth depends on actual
  logarithm values (the NMI computation of `compare_partitions`) is modelled
  separately over `ℝ` with `Real.log`.
* A `networkx.Graph` is a node list plus an undirected edge list where each
  edge `(u, v, w)` is stored once and carries its resolved weight
  (`datas.get(weight, 1)` in the source); the derived adjacency (`Graph.adj`),
  weighted degree (`Graph.degree`, self-loops counted twice), weighted size
  (`Graph.size`, each edge once) and edge-data lookup (`Graph.edgeWeight`)
  follow the networkx semantics the source relies on.
* Exceptions (`raise`/`assert`) are modelled with `Except String`; the
  condition under which `Status.init` raises on a bad weight is captured by
  the decidable `statusInitOk`.
* The `randomize` flag is fixed to `False` (its only effect in the source is
  shuffling iteration orders); the sweep of `__one_level` is additionally
  exposed over an arbitrary node iteration order (`sweepList`) so that
  invariant theorems cover shuffled orders as well.
* The unbounded `while` loops of `__one_level` and `generate_dendrogram` are
  given an explicit fuel parameter; theorems hold for every fuel value.
-/

/-- Association-list model of a Python dict (insertion ordered). -/
abbrev Dict (α β : Type) : Type := List (α × β)

/-- Model of `d.get(k, v0)` / `d[k]`: value at the first matching key, else the default. -/
def dget {α β : Type} [DecidableEq α] (d : Dict α β) (k : α) (v0 : β) : β :=
  match d with
  | [] => v0
  | p :: d => if p.1 = k then p.2 else dget d k v0

/-- Model of `d[k] = v`: replace the first binding of `k`, appending when absent. -/
def dset {α β : Type} [DecidableEq α] (d : Dict α β) (k : α) (v : β) : Dict α β :=
  match d with
  | [] => [(k, v)]
  | p :: d => if p.1 = k then (k, v) :: d else p :: dset d k v

/-- Model of `d.keys()`. -/
def dkeys {α β : Type} (d : Dict α β) : List α := d.map Prod.fst

/-- Model of `d.values()`. -/
def dvals {α β : Type} (d : Dict α β) : List β := d.map Prod.snd

/-- Model of `sum(d.values())` for a float-valued dict. -/
def dsum {α : Type} (d : Dict α ℚ) : ℚ := (d.map Prod.snd).sum

/-- An undirected weighted graph: node list plus edge list, each undirected
edge stored once with its resolved weight (`networkx.Graph` view used by the
source). -/
structure Graph where
  nodes : List ℤ
  edges : List (ℤ × ℤ × ℚ)

/-- Whether the stored edge `e` is the undirected edge between `a` and `b`. -/
def isEdge (a b : ℤ) (e : ℤ × ℤ × ℚ) : Prop := (e.1 = a ∧ e.2.1 = b) ∨ (e.1 = b ∧ e.2.1 = a)

instance (a b : ℤ) (e : ℤ × ℤ × ℚ) : Decidable (isEdge a b e) := by
  unfold isEdge; infer_instance

/-- Model of `graph.get_edge_data(u, v, default={weight: 0}).get(weight, 1)`:
the resolved weight of the stored edge between `u` and `v`, `0` when absent. -/
def wlook (es : List (ℤ × ℤ × ℚ)) (a b : ℤ) : ℚ :=
  match es with
  | [] => 0
  | e :: es => if isEdge a b e then e.2.2 else wlook es a b

/-- Model of `graph[node].items()`: the adjacency of `v` (neighbor, weight),
with a self-loop listed once, in edge insertion order. -/
def Graph.adj (g : Graph) (v : ℤ) : List (ℤ × ℚ) :=
  g.edges.filterMap (fun e =>
    if e.1 = v then some (e.2.1, e.2.2)
    else if e.2.1 = v then some (e.1, e.2.2) else none)

/-- Model of `graph.get_edge_data(u, v, ...)` weight lookup on a `Graph`. -/
def Graph.edgeWeight (g : Graph) (a b : ℤ) : ℚ := wlook g.edges a b

/-- Model of `graph.degree(v, weight=weight)`: sum of incident edge weights,
self-loops counted twice (adjacency lists a self-loop once, so it is added again). -/
def Graph.degree (g : Graph) (v : ℤ) : ℚ :=
  ((g.adj v).map Prod.snd).sum + g.edgeWeight v v

/-- Model of `graph.size(weight=weight)`: total edge weight, each edge once. -/
def Graph.size (g : Graph) : ℚ := (g.edges.map (fun e => e.2.2)).sum

/-- Model of `graph.number_of_edges()` (also `graph.size()` with no weight key). -/
def Graph.numberOfEdges (g : Graph) : ℕ := g.edges.length

/-- Well-formedness of the graph encoding: no duplicate nodes, edge endpoints
are nodes, and each undirected edge is stored at most once. -/
def GraphWF (g : Graph) : Prop :=
  g.nodes.Nodup ∧
  (∀ e ∈ g.edges, e.1 ∈ g.nodes ∧ e.2.1 ∈ g.nodes) ∧
  g.edges.Pairwise (fun e1 e2 => ¬ isEdge e1.1 e1.2.1 e2)

instance (g : Graph) : Decidable (GraphWF g) := by
  unfold GraphWF; infer_instance

/-- Positivity of every stored edge weight (the source raises on nonpositive
weights during `Status.init` with an explicit partition). -/
def PosWeights (g : Graph) : Prop := ∀ e ∈ g.edges, 0 < e.2.2

instance (g : Graph) : Decidable (PosWeights g) := by
  unfold PosWeights; infer_instance

/-- Partition dict: node label to community label. -/
abbrev Pt : Type := Dict ℤ ℤ

/-- The `Status` record of `community_status.py`. -/
structure Status where
  node2com : Dict ℤ ℤ
  total_weight : ℚ
  degrees : Dict ℤ ℚ
  gdegrees : Dict ℤ ℚ
  internals : Dict ℤ ℚ
  loops : Dict ℤ ℚ
  rawnode2node : Dict ℤ ℤ
  rawnode2degree : Dict ℤ ℤ
  com2size : Dict ℤ ℤ
  node2size : Dict ℤ ℤ

/-- Model of `Status.__init__`: every field empty. -/
def emptyStatus : Status :=
  { node2com := [], total_weight := 0, degrees := [], gdegrees := [], internals := [],
    loops := [], rawnode2node := [], rawnode2degree := [], com2size := [], node2size := [] }

/-- Accumulator for the per-node loops of `Status.init` (the loop-local view of
the fields being built, plus the running `count`). -/
structure InitAcc where
  rawnode2node : Dict ℤ ℤ
  node2com : Dict ℤ ℤ
  degrees : Dict ℤ ℚ
  gdegrees : Dict ℤ ℚ
  internals : Dict ℤ ℚ
  loops : Dict ℤ ℚ
  count : ℤ

/-- Loop body of the `part is None` branch of `Status.init` (iterated over
`sorted(graph.nodes())`). -/
def initNoneStep (g : Graph) (rawIsNone : Bool) (a : InitAcc) (node : ℤ) : InitAcc :=
  let r := if rawIsNone then dset a.rawnode2node node node else a.rawnode2node
  let deg := g.degree node
  let loopv := g.edgeWeight node node
  { rawnode2node := r,
    node2com := dset a.node2com node a.count,
    degrees := dset a.degrees a.count deg,
    gdegrees := dset a.gdegrees node deg,
    internals := dset a.internals a.count loopv,
    loops := dset a.loops node loopv,
    count := a.count + 1 }

/-- Loop body of the explicit-partition branch of `Status.init` (iterated over
`graph.nodes()`).  Note that this branch of the source never assigns
`self.loops`. -/
def initPartStep (g : Graph) (part : Pt) (rawIsNone : Bool) (a : InitAcc) (node : ℤ) : InitAcc :=
  let r := if rawIsNone then dset a.rawnode2node node node else a.rawnode2node
  let com := dget part node 0
  let deg := g.degree node
  let inc := (g.adj node).foldl
    (fun (inc : ℚ) p =>
      if dget part p.1 0 = com then
        (if p.1 = node then inc + p.2 else inc + p.2 / 2)
      else inc) 0
  { rawnode2node := r,
    node2com := dset a.node2com node com,
    degrees := dset a.degrees com (dget a.degrees com 0 + deg),
    gdegrees := dset a.gdegrees node deg,
    internals := dset a.internals com (dget a.internals com 0 + inc),
    loops := a.loops,
    count := a.count + 1 }

/-- Model of `Status.init(graph, weight, part, raw_partition, raw_graph)`.
The method resets every field except `self.loops` (carried over from the
previous state `prev`, which is what the source's omission of `loops` from the
reset list amounts to), then fills them per branch and finally rebuilds
`rawnode2node`, `com2size`, `node2size` and `rawnode2degree`. -/
def Status.init (prev : Status) (g : Graph) (part : Option Pt)
    (raw_partition : Option Pt) (raw_graph : Option Graph) : Status :=
  let a0 : InitAcc :=
    { rawnode2node := [], node2com := [], degrees := [], gdegrees := [],
      internals := [], loops := prev.loops, count := 0 }
  let a :=
    match part with
    | none => (g.nodes.insertionSort (· ≤ ·)).foldl (initNoneStep g raw_partition.isNone) a0
    | some p => g.nodes.foldl (initPartStep g p raw_partition.isNone) a0
  let raw :=
    match raw_partition with
    | some rp => if rp.isEmpty then a.rawnode2node
                 else rp.foldl (fun (r : Dict ℤ ℤ) q => dset r q.1 q.2) a.rawnode2node
    | none => a.rawnode2node
  let c0 : Dict ℤ ℤ := ((a.node2com.map Prod.snd).dedup).foldl (fun c com => dset c com 0) []
  let cs := raw.foldl
    (fun (cs : Dict ℤ ℤ × Dict ℤ ℤ) q =>
      let com := dget a.node2com q.2 0
      (dset cs.1 com (dget cs.1 com 0 + 1),
       dset cs.2 q.2 (dget cs.2 q.2 0 + 1))) (c0, [])
  let rg := raw_graph.getD g
  let r2d := rg.edges.foldl
    (fun (d : Dict ℤ ℤ) e =>
      let d1 := dset d e.1 (dget d e.1 0 + 1)
      dset d1 e.2.1 (dget d1 e.2.1 0 + 1)) []
  { node2com := a.node2com, total_weight := g.size, degrees := a.degrees,
    gdegrees := a.gdegrees, internals := a.internals, loops := a.loops,
    rawnode2node := raw, rawnode2degree := r2d, com2size := cs.1, node2size := cs.2 }

/-- The condition under which `Status.init` completes without raising
`ValueError("Bad graph type ...")`: with an explicit partition every incident
edge weight seen by the inner loop is positive; without one every weighted
degree is nonnegative. -/
def statusInitOk (g : Graph) (part : Option Pt) : Bool :=
  match part with
  | none => g.nodes.all (fun n => decide (0 ≤ g.degree n))
  | some _ => g.nodes.all (fun n => (g.adj n).all (fun p => decide (0 < p.2)))

/-- Error message of the `Status.init` weight check (`"Bad graph type ..."`). -/
def errBadGraph : String := "Bad graph type"

/-- Error message of `modularity` on an edgeless graph. -/
def errNoLink : String := "A graph without link has an undefined modularity"

/-- Error message of the model-name assertions. -/
def errUnknownModel : String := "Unknown model specified"

/-- The `__MIN` constant (`0.0000001`). -/
def minEps : ℚ := 1 / 10000000

/-- Model-name string constants. -/
def mDcppm : String := "dcppm"

/-- Model-name string constant for `ppm`. -/
def mPpm : String := "ppm"

/-- Model-name string constant for `ilfr`. -/
def mIlfr : String := "ilfr"

/-- Model-name string constant for `ilfrs`. -/
def mIlfrs : String := "ilfrs"

/-- The tuple `('dcppm','ppm','ilfr','ilfrs')` of the model-name assertions. -/
def allowedModels : List String := [mDcppm, mPpm, mIlfr, mIlfrs]

/-- Parameter-bag key `'gamma'`. -/
def kGamma : String := "gamma"

/-- Parameter-bag key `'mu'`. -/
def kMu : String := "mu"

/-- Parameter-bag key `'fixedPin'`. -/
def kFixedPin : String := "fixedPin"

/-- Parameter-bag key `'fixedPout'`. -/
def kFixedPout : String := "fixedPout"

/-- Parameter bag: `pars` is a Python dict or `None`. -/
abbrev Pars : Type := Option (Dict String ℚ)

/-- Model of the inc/deg-building loop of the public `modularity` (the
`for node in graph` loop): returns the `inc` and `deg` dicts. -/
def modularityDicts (g : Graph) (part : Pt) : Dict ℤ ℚ × Dict ℤ ℚ :=
  g.nodes.foldl
    (fun (acc : Dict ℤ ℚ × Dict ℤ ℚ) node =>
      let com := dget part node 0
      let deg := dset acc.2 com (dget acc.2 com 0 + g.degree node)
      let inc := (g.adj node).foldl
        (fun (inc : Dict ℤ ℚ) p =>
          if dget part p.1 0 = com then
            (if p.1 = node then dset inc com (dget inc com 0 + p.2)
             else dset inc com (dget inc com 0 + p.2 / 2))
          else inc) acc.1
      (inc, deg)) ([], [])

/-- The value computed by the result loop of the public `modularity`
(`res += inc.get(com,0)/links - gamma*(deg.get(com,0)/(2 links))**2` over
`set(partition.values())`). -/
def modularityVal (part : Pt) (g : Graph) (gamma : ℚ) : ℚ :=
  let links := g.size
  let d := modularityDicts g part
  (((part.map Prod.snd).dedup).map
    (fun com => dget d.1 com 0 / links - gamma * (dget d.2 com 0 / (2 * links)) ^ 2)).sum

/-- Model of the public `modularity(partition, graph, weight, gamma)` with its
`ValueError` on an edgeless (weight-zero) graph. -/
def modularity (part : Pt) (g : Graph) (gamma : ℚ) : Except String ℚ :=
  let links := g.size
  if links = 0 then Except.error errNoLink
  else Except.ok (modularityVal part g gamma)

/-- Model of `__get_safe_par(model, pars)`.  An unknown model with a nonempty
parameter bag leaves `par` unbound in the source (an `UnboundLocalError`);
that unreachable path is given the junk value `0` here. -/
def getSafePar (model : String) (pars : Pars) : ℚ :=
  match pars with
  | none => 1 - minEps
  | some d =>
    if d.isEmpty then 1 - minEps
    else if model = mIlfrs ∨ model = mIlfr then
      min (max (dget d kMu 1) minEps) (1 - minEps)
    else if model = mDcppm ∨ model = mPpm then
      max (dget d kGamma 1) minEps
    else 0

/-- The community list a loop `for community in set(status.node2com.values())`
ranges over. -/
def Status.coms (st : Status) : List ℤ := (st.node2com.map Prod.snd).dedup

/-- Model of `__get_es(status)`: `(E, Ein, Eout, degrees_squared)`. -/
def getES (st : Status) : ℚ × ℚ × ℚ × ℚ :=
  let E := st.total_weight
  let Ein := (st.coms.map (fun c => dget st.internals c 0)).sum
  let ds := (st.coms.map (fun c => dget st.degrees c 0 * dget st.degrees c 0)).sum
  (E, Ein, E - Ein, ds)

/-- Model of `__get_DLD(status)` (`sum(x*log(x))` over positive raw degrees). -/
def getDLD (rlog : ℚ → ℚ) (st : Status) : ℚ :=
  (((st.rawnode2degree.map Prod.snd).filter (fun x => 0 < x)).map
    (fun x => (x : ℚ) * rlog (x : ℚ))).sum

/-- Model of `__get_SUMDC2_P2in(status)`: builds the per-community raw-degree
sums `DC` and raw-vertex counts `VC`, then returns `(SUMDC2, P2in)`. -/
def getSUMDC2P2in (st : Status) : ℚ × ℚ :=
  let dcvc := st.rawnode2node.foldl
    (fun (a : Dict ℤ ℤ × Dict ℤ ℤ) q =>
      let c := dget st.node2com q.2 0
      (dset a.1 c (dget a.1 c 0 + dget st.rawnode2degree q.1 0),
       dset a.2 c (dget a.2 c 0 + 1))) ([], [])
  let sumdc2 := (dcvc.1.map (fun p => (p.2 : ℚ) * (p.2 : ℚ))).sum
  let p2in := (dcvc.1.map
    (fun p => (((dget dcvc.2 p.1 0 : ℤ) : ℚ) * (((dget dcvc.2 p.1 0 : ℤ) : ℚ) - 1)) / 2)).sum
  (sumdc2, p2in)

/-- Model of `P2 = n*(n-1)/2` with `n = len(status.rawnode2node)`. -/
def Status.p2 (st : Status) : ℚ :=
  let n : ℚ := (st.rawnode2node.length : ℚ)
  n * (n - 1) / 2

/-- Model of `__modularity(status, model, pars)`: the full objective value of
the current partition, dispatching on the model string (the final `else`
branch is PPM, which is also what an unknown model falls into). -/
def internalModularity (rlog : ℚ → ℚ) (st : Status) (model : String) (pars : Pars) : ℚ :=
  let par := getSafePar model pars
  if model = mDcppm then
    let links := st.total_weight
    (st.coms.map (fun c =>
      if 0 < links then
        dget st.internals c 0 / links - par * (dget st.degrees c 0 / (2 * links)) ^ 2
      else 0)).sum
  else if model = mIlfrs then
    let es := getES st
    let E := es.1
    let Ein := es.2.1
    let Eout := es.2.2.1
    let par := min (max par minEps) (1 - minEps)
    Eout * rlog par + Ein * rlog (1 - par) - Eout * rlog (2 * E)
      - (st.coms.map (fun c =>
          let d := dget st.degrees c 0
          if 0 < d then dget st.internals c 0 * rlog d else 0)).sum
      - E + getDLD rlog st
  else if model = mIlfr then
    let es := getES st
    let E := es.1
    let Eout := es.2.2.1
    let dld := getDLD rlog st
    let par := max par minEps
    Eout * rlog par - Eout * rlog (2 * E) + dld - E
      + (st.coms.map (fun c =>
          let d := dget st.degrees c 0
          if 0 < d then dget st.internals c 0 * rlog ((1 - par) / d + par / (2 * E)) else 0)).sum
  else
    let es := getES st
    let Ein := es.2.1
    let E := es.1
    let p2in0 := (getSUMDC2P2in st).2
    let p2 := st.p2
    -- the source also computes and clamps `P2out`, which the result does not use
    let p2in := max p2in0 minEps
    (Ein - par * p2in * E / p2) / E

/-- Model of `__neighcom(node, graph, status, weight_key)`: community to sum of
edge weights from `node` into it, self-loops excluded. -/
def neighcom (node : ℤ) (g : Graph) (st : Status) : Dict ℤ ℚ :=
  (g.adj node).foldl
    (fun (weights : Dict ℤ ℚ) p =>
      if p.1 = node then weights
      else
        let nc := dget st.node2com p.1 0
        dset weights nc (dget weights nc 0 + p.2)) []

/-- Model of `__remove(node, com, weight, status)` (parks the node in the
sentinel community `-1`; note `internals[-1]` is assigned, not accumulated). -/
def removeNode (node com : ℤ) (w : ℚ) (st : Status) : Status :=
  let gdeg := dget st.gdegrees node 0
  let d1 := dset st.degrees com (dget st.degrees com 0 - gdeg)
  let d2 := dset d1 (-1) (dget d1 (-1) 0 + gdeg)
  let i1 := dset st.internals com (dget st.internals com 0 - w - dget st.loops node 0)
  let i2 := dset i1 (-1) (dget st.loops node 0)
  { st with
    degrees := d2,
    internals := i2,
    node2com := dset st.node2com node (-1),
    com2size := dset st.com2size com (dget st.com2size com 0 - dget st.node2size node 0) }

/-- Model of `__insert(node, com, weight, status)` (exact inverse of
`removeNode` on `degrees`; adds the incident weight and the cached self-loop to
`internals[com]`). -/
def insertNode (node com : ℤ) (w : ℚ) (st : Status) : Status :=
  let gdeg := dget st.gdegrees node 0
  let d1 := dset st.degrees (-1) (dget st.degrees (-1) 0 - gdeg)
  let d2 := dset d1 com (dget d1 com 0 + gdeg)
  { st with
    node2com := dset st.node2com node com,
    degrees := d2,
    internals := dset st.internals com (dget st.internals com 0 + w + dget st.loops node 0),
    com2size := dset st.com2size com (dget st.com2size com 0 + dget st.node2size node 0) }

/-- The constants `__one_level` precomputes before its `while` loop from the
(immutable) `status.total_weight`, the safe parameter and `len(rawnode2node)`. -/
structure LevelConsts where
  par : ℚ
  bigE : ℚ
  twoE : ℚ
  mpar : ℚ
  l2E : ℚ
  l2Epar : ℚ
  l2Epar2 : ℚ
  lpar : ℚ
  l2Epar3 : ℚ
  par2E : ℚ
  p2 : ℚ

/-- Computation of the `__one_level` preamble constants. -/
def levelConsts (rlog : ℚ → ℚ) (model : String) (pars : Pars) (st : Status) : LevelConsts :=
  let par := getSafePar model pars
  let bigE := st.total_weight
  let twoE := 2 * bigE
  let mpar := 1 - par
  let l2E := if 0 < bigE then rlog twoE else 0
  let l2Epar := if 0 < bigE ∧ 0 < mpar then rlog (twoE * mpar / par) else 0
  let l2Epar2 := if 0 < mpar then rlog (par / mpar) - l2E else 0
  let lpar := rlog par
  { par := par, bigE := bigE, twoE := twoE, mpar := mpar, l2E := l2E,
    l2Epar := l2Epar, l2Epar2 := l2Epar2, lpar := lpar,
    l2Epar3 := lpar - l2E, par2E := par / twoE, p2 := st.p2 }

/-- The `remove_cost` of the `for node in ...` body of `__one_level`, computed
from the status before the removal. -/
def removeCost (rlog : ℚ → ℚ) (g : Graph) (c : LevelConsts) (model : String)
    (st : Status) (node com_node : ℤ) (v_in : ℚ) : ℚ :=
  if model = mDcppm then
    let com_degree := dget st.degrees com_node 0
    let v_degree := dget st.gdegrees node 0
    c.par * v_degree / c.twoE * (com_degree - v_degree) - v_in
  else if model = mIlfrs then
    let com_degree := dget st.degrees com_node 0
    let v_degree := dget st.gdegrees node 0
    let v_loops := g.edgeWeight node node
    let com_in := dget st.internals com_node 0
    v_in * c.l2Epar2 + com_in * rlog com_degree
      - (if v_degree < com_degree then (com_in - v_loops - v_in) * rlog (com_degree - v_degree) else 0)
  else if model = mIlfr then
    let com_degree := dget st.degrees com_node 0
    let v_degree := dget st.gdegrees node 0
    let v_loops := g.edgeWeight node node
    let com_in := dget st.internals com_node 0
    v_in * c.l2Epar3
      - (if 0 < com_degree then com_in * rlog (c.mpar / com_degree + c.par2E) else 0)
      + (if 0 < com_degree - v_degree then
          (com_in - v_in - v_loops) * rlog (c.mpar / (com_degree - v_degree) + c.par2E) else 0)
  else
    let volume_node : ℚ := ((dget st.node2size node 0 : ℤ) : ℚ)
    let volume_cluster : ℚ := ((dget st.com2size com_node 0 : ℤ) : ℚ) - volume_node
    volume_cluster * (c.par * volume_node / c.p2) - v_in / c.bigE

/-- The `add_cost` of the candidate-community loop of `__one_level`, computed
from the status after the removal (`st1`). -/
def addCost (rlog : ℚ → ℚ) (g : Graph) (c : LevelConsts) (model : String)
    (st : Status) (st1 : Status) (node com : ℤ) (dnc : ℚ) : ℚ :=
  if model = mDcppm then
    let com_degree := dget st1.degrees com 0
    let v_degree := dget st.gdegrees node 0
    dnc - c.par * v_degree / c.twoE * com_degree
  else if model = mIlfrs then
    let com_in := dget st1.internals com 0
    let com_degree := dget st1.degrees com 0
    let v_degree := dget st.gdegrees node 0
    let v_loops := g.edgeWeight node node
    dnc * c.l2Epar + com_in * rlog com_degree
      - (com_in + v_loops + dnc) * rlog (com_degree + v_degree)
  else if model = mIlfr then
    let com_in := dget st1.internals com 0
    let com_degree := dget st1.degrees com 0
    let v_degree := dget st.gdegrees node 0
    let v_loops := g.edgeWeight node node
    dnc * (c.l2E - c.lpar)
      - (if 0 < com_degree then com_in * rlog (c.mpar / com_degree + c.par2E) else 0)
      + (if 0 < com_degree + v_degree then
          (com_in + dnc + v_loops) * rlog (c.mpar / (com_degree + v_degree) + c.par2E) else 0)
  else
    let volume_node : ℚ := ((dget st.node2size node 0 : ℤ) : ℚ)
    let volume_cluster : ℚ := ((dget st1.com2size com 0 : ℤ) : ℚ)
    dnc / c.bigE - volume_cluster * (c.par * volume_node / c.p2)

/-- One iteration of the `for node in __randomly(graph.nodes(), randomize)`
body of `__one_level`: compute the removal cost, remove the node, pick the
neighboring community with the strictly largest gain (staying put by default),
insert, and record whether the node moved. -/
def oneLevelNode (rlog : ℚ → ℚ) (g : Graph) (c : LevelConsts) (model : String)
    (stm : Status × Bool) (node : ℤ) : Status × Bool :=
  let st := stm.1
  let com_node := dget st.node2com node 0
  let neigh := neighcom node g st
  let v_in := dget neigh com_node 0
  let rc := removeCost rlog g c model st node com_node v_in
  let st1 := removeNode node com_node (dget neigh com_node 0) st
  let best := neigh.foldl
    (fun (b : ℤ × ℚ) p =>
      let incr := addCost rlog g c model st st1 node p.1 p.2 + rc
      if b.2 < incr then (p.1, incr) else b) (com_node, 0)
  let st2 := insertNode node best.1 (dget neigh best.1 0) st1
  (st2, stm.2 || decide (¬ best.1 = com_node))

/-- One sweep of `__one_level` over an explicit node iteration order. -/
def sweepList (rlog : ℚ → ℚ) (g : Graph) (c : LevelConsts) (model : String)
    (order : List ℤ) (st : Status) : Status × Bool :=
  order.foldl (oneLevelNode rlog g c model) (st, false)

/-- The `while modified and nb_pass_done != __PASS_MAX` loop of `__one_level`
(`__PASS_MAX = -1`, so the pass counter never stops it), with fuel. -/
def oneLevelLoop (rlog : ℚ → ℚ) (g : Graph) (c : LevelConsts) (model : String)
    (pars : Pars) (fuel : ℕ) (cur_mod : ℚ) (st : Status) : Status :=
  match fuel with
  | 0 => st
  | fuel + 1 =>
    let r := sweepList rlog g c model g.nodes st
    if r.2 then
      let new_mod := internalModularity rlog r.1 model pars
      if new_mod - cur_mod < minEps then r.1
      else oneLevelLoop rlog g c model pars fuel new_mod r.1
  else r.1

set_option linter.unusedVariables false in
/-- Model of `__one_level(graph, status, weight_key, resolution, randomize,
model, pars)` with `randomize=False`.  The `resolution` argument is accepted,
as in the source, and (as in the source) never read by the body. -/
def oneLevel (rlog : ℚ → ℚ) (g : Graph) (resolution : ℚ) (model : String)
    (pars : Pars) (fuel : ℕ) (st : Status) : Status :=
  let c := levelConsts rlog model pars st
  oneLevelLoop rlog g c model pars fuel (internalModularity rlog st model pars) st

/-- Model of `__renumber(dictionary)`: canonicalize the values to `0..k-1` in
key-iteration order (`ret`, `new_values`, `count` as in the source; the `-1`
absent-sentinel of `new_values.get(value, -1)` is modelled directly). -/
def renumber (d : Pt) : Pt :=
  (d.foldl
    (fun (a : Pt × Dict ℤ ℤ × ℤ) p =>
      let value := p.2
      let nv := dget a.2.1 value (-1)
      if nv = -1 then (dset a.1 p.1 a.2.2, dset a.2.1 value a.2.2, a.2.2 + 1)
      else (dset a.1 p.1 nv, a.2.1, a.2.2)) (d, [], 0)).1

/-- Model of `__transit(partition, rawnodepart)`:
`res[n] = partition[mn]` over the raw-to-meta map. -/
def transit (partition : Pt) (rawnodepart : Dict ℤ ℤ) : Pt :=
  rawnodepart.foldl (fun (res : Pt) q => dset res q.1 (dget partition q.2 0)) []

/-- Replace the first stored edge between `a` and `b` with weight `w` (keeping
its stored orientation), appending a new edge when absent: the effect of
`ret.add_edge(a, b, attr_dict={weight: w})` on the edge list. -/
def setEdge (es : List (ℤ × ℤ × ℚ)) (a b : ℤ) (w : ℚ) : List (ℤ × ℤ × ℚ) :=
  match es with
  | [] => [(a, b, w)]
  | e :: es => if isEdge a b e then (e.1, e.2.1, w) :: es else e :: setEdge es a b w

/-- Add a node if absent: the node-set effect of `ret.add_edge`. -/
def addNode (ns : List ℤ) (c : ℤ) : List ℤ := if c ∈ ns then ns else ns ++ [c]

/-- Loop body of `induced_graph`: `ret.add_edge(com1, com2,
attr_dict={weight: w_prec + edge_weight})` with `w_prec` the current weight
between the two endpoint communities (`0` when the edge is absent). -/
def inducedStep (partition : Pt) (ret : Graph) (e : ℤ × ℤ × ℚ) : Graph :=
  let com1 := dget partition e.1 0
  let com2 := dget partition e.2.1 0
  let w_prec := wlook ret.edges com1 com2
  { nodes := addNode (addNode ret.nodes com1) com2,
    edges := setEdge ret.edges com1 com2 (w_prec + e.2.2) }

/-- Model of `induced_graph(partition, graph, weight)`: nodes are the partition
values, and each graph edge adds its weight onto the edge between the
endpoint communities. -/
def inducedGraph (partition : Pt) (g : Graph) : Graph :=
  g.edges.foldl (inducedStep partition)
    { nodes := (partition.map Prod.snd).dedup, edges := [] }

/-- Model of `partition_at_level(dendrogram, level)`:
`partition[node] = dendrogram[index][partition[node]]` composed up to `level`. -/
def partitionAtLevel (dendrogram : List Pt) (level : ℕ) : Pt :=
  (List.range level).foldl
    (fun (partition : Pt) idx =>
      partition.map (fun p => (p.1, dget (dendrogram.getD (idx + 1) []) p.2 0)))
    (dendrogram.getD 0 [])

/-- Model of the trivial partition `part[node] = node` returned by
`generate_dendrogram` on an edgeless graph. -/
def idPart (g : Graph) : Pt :=
  g.nodes.foldl (fun (part : Pt) node => dset part node node) []

/-- Body of the `while True` loop of `generate_dendrogram`, with fuel.  State:
the status list built so far, the previous objective value `mod`, the current
contracted graph and the current status. -/
def dendrogramLoop (rlog : ℚ → ℚ) (origGraph : Graph) (resolution : ℚ) (model : String)
    (pars : Pars) (sweepFuel : ℕ) (fuel : ℕ) (status_list : List Pt) (mod : ℚ)
    (current_graph : Graph) (st : Status) : List Pt :=
  match fuel with
  | 0 => status_list
  | fuel + 1 =>
    let st1 := oneLevel rlog current_graph resolution model pars sweepFuel st
    let new_mod := internalModularity rlog st1 model pars
    if new_mod - mod < minEps then status_list
    else
      let partition := renumber st1.node2com
      let status_list := status_list ++ [partition]
      let next_graph := inducedGraph partition current_graph
      let st2 := Status.init st1 next_graph none
        (some (transit partition st1.rawnode2node)) (some origGraph)
      dendrogramLoop rlog origGraph resolution model pars sweepFuel fuel status_list new_mod
        next_graph st2

set_option linter.unusedVariables false in
/-- Model of `generate_dendrogram(graph, part_init, weight, resolution,
randomize, model, pars)` with `randomize=False`.  There is no model-name check
in this function.  The `resolution` argument is only handed to `__one_level`,
which never reads it; to make that literal in the embedding it is forwarded in
the same position while `oneLevel` ignores it.  Levels are cut off by `fuel`
(the source loops unboundedly); the edgeless special case returns the trivial
partition before anything else runs. -/
def generateDendrogram (rlog : ℚ → ℚ) (g : Graph) (part_init : Option Pt)
    (resolution : ℚ) (model : String) (pars : Pars) (sweepFuel fuel : ℕ) : List Pt :=
  if g.numberOfEdges = 0 then [idPart g]
  else
    let current_graph := g
    let st := Status.init emptyStatus current_graph part_init none none
    let st1 := oneLevel rlog current_graph resolution model pars sweepFuel st
    let new_mod := internalModularity rlog st1 model pars
    let partition := renumber st1.node2com
    let status_list := [partition]
    let mod := new_mod
    let next_graph := inducedGraph partition current_graph
    let st2 := Status.init st1 next_graph none
      (some (transit partition st1.rawnode2node)) (some g)
    dendrogramLoop rlog g resolution model pars sweepFuel fuel status_list mod next_graph st2

/-- Model of `best_partition(graph, partition, weight, resolution, randomize,
model, pars)`: the model-name assertion is its first statement, before any
computation; then the dendrogram's last level is returned. -/
def bestPartition (rlog : ℚ → ℚ) (g : Graph) (partition : Option Pt)
    (resolution : ℚ) (model : String) (pars : Pars) (sweepFuel fuel : ℕ) : Except String Pt :=
  if model ∈ allowedModels then
    let dendo := generateDendrogram rlog g partition resolution model pars sweepFuel fuel
    Except.ok (partitionAtLevel dendo (dendo.length - 1))
  else Except.error errUnknownModel

/-- Model of `__get_pin_pout(status)`:
`(Pin, Pout, E, Ein, Eout, degrees_squared, SUMDC2, P2in)`. -/
def getPinPout (st : Status) : ℚ × ℚ × ℚ × ℚ × ℚ × ℚ × ℚ × ℚ :=
  let es := getES st
  let E := es.1
  let Ein := es.2.1
  let Eout := es.2.2.1
  let ds := es.2.2.2
  let sp := getSUMDC2P2in st
  let pin := 4 * Ein * E / sp.1
  let pout := if Eout = 0 then minEps else 4 * Eout * E / (4 * E * E - sp.1)
  (pin, pout, E, Ein, Eout, ds, sp.1, sp.2)

/-- Model of `estimate_mu(graph, partition, current_mu, model, weight)`.  The
default branch (any model other than `'ilfr'`) counts edges: `Eout` is the
number of cross-community edges and `Gsize = graph.size()` the number of
edges, weights ignored. -/
def estimateMu (rlog : ℚ → ℚ) (g : Graph) (partition : Pt)
    (current_mu : Option ℚ) (model : Option String) : ℚ :=
  if model = some mIlfr then
    let st := Status.init emptyStatus g (some partition) none none
    let es := getES st
    let E := es.1
    let Eout := es.2.2.1
    let cm := current_mu.getD (Eout / E)
    let cm := min (max cm minEps) (1 - minEps)
    Eout * rlog cm
      + (st.coms.map (fun c =>
          let d := dget st.degrees c 0
          let ind := 2 * dget st.internals c 0
          if 0 < d then ind * rlog ((1 - cm) / d + cm / (2 * E)) / 2 else 0)).sum
  else
    let Eout := (g.edges.filter
      (fun e => decide (¬ dget partition e.1 0 = dget partition e.2.1 0))).length
    (Eout : ℚ) / (g.numberOfEdges : ℚ)

/-- Model of `model_log_likelihood(graph, part_init, model, weight, pars)`.
The source copies the graph and runs `Status.init` (which may raise on a bad
weight) before its model-name assertion; that ordering is preserved here.  The
dead local `par = __get_safe_par(model, pars)` of the source is not bound. -/
def modelLogLikelihood (rlog : ℚ → ℚ) (g : Graph) (part_init : Option Pt)
    (model : String) (pars : Pars) : Except String ℚ :=
  if statusInitOk g part_init = false then Except.error errBadGraph
  else
    let st := Status.init emptyStatus g part_init none none
    if model ∈ allowedModels then
      let pars0 := pars.getD []
      if model = mDcppm then
        let pp := getPinPout st
        let E := pp.2.2.1
        let Ein := pp.2.2.2.1
        let ds := pp.2.2.2.2.2.1
        let dld := getDLD rlog st
        let pin := max pp.1 minEps
        let pout := max pp.2.1 minEps
        Except.ok (Ein * (rlog pin - rlog pout) - (pin - pout) * ds / (4 * E) + dld
          + E * rlog pout - E * pout - E * rlog (2 * E))
      else if model = mIlfr ∨ model = mIlfrs then
        if kMu ∈ pars0.map Prod.fst ∧ ¬ dget pars0 kMu 0 = 0 then
          Except.ok (internalModularity rlog st model (some pars0))
        else
          -- `estimate_mu(graph, part_init)`: crashes in the source when
          -- `part_init` is `None`; modelled with the empty dict there
          Except.ok (internalModularity rlog st model
            (some [(kMu, estimateMu rlog g (part_init.getD []) none none)]))
      else if model = mPpm then
        let es := getES st
        let Ein := es.2.1
        let Eout := es.2.2.1
        let p2in0 := (getSUMDC2P2in st).2
        let p2 := st.p2
        let p2out0 := p2 - p2in0
        let p2in := max p2in0 minEps
        let p2out := max p2out0 minEps
        let pin := if kFixedPin ∈ pars0.map Prod.fst then dget pars0 kFixedPin 0 else Ein / p2in
        let pout := if kFixedPout ∈ pars0.map Prod.fst then dget pars0 kFixedPout 0 else Eout / p2out
        let ext := -Eout - Ein
        let ext := if kFixedPin ∈ pars0.map Prod.fst then
            ext + Ein - p2in * dget pars0 kFixedPin 0 else ext
        let ext := if kFixedPout ∈ pars0.map Prod.fst then
            ext + Eout - p2out * dget pars0 kFixedPout 0 else ext
        let ext := if 0 < Ein then ext + Ein * rlog pin else ext
        let ext := if 0 < Eout then ext + Eout * rlog pout else ext
        Except.ok ext
      else Except.ok 0 -- unreachable: the assertion admits exactly the four branches above
    else Except.error errUnknownModel

/-- Model of the block decomposition `p_sets.values()` of `compare_partitions`:
for each community (in first-seen order) the list of its nodes. -/
def blocks (p : Pt) : List (List ℤ) :=
  ((p.map Prod.snd).dedup).map (fun c => (p.filter (fun q => decide (q.2 = c))).map Prod.fst)

/-- Model of the cross-tabulation loop of `compare_partitions`, returning
`(a00, a01, a10, a11)` as unpacked from `[[a00, a01], [a10, a11]] = cross_tab`
(so `a00 = Σ common²`, `a01 = Σ l1*common`, `a10 = Σ common*l2`,
`a11 = Σ l1*l2`). -/
def crossTab (p1 p2 : Pt) : ℕ × ℕ × ℕ × ℕ :=
  (blocks p1).foldl
    (fun acc s1 =>
      (blocks p2).foldl
        (fun (acc : ℕ × ℕ × ℕ × ℕ) s2 =>
          let common := (s1.inter s2).length
          let l1 := s1.length - common
          let l2 := s2.length - common
          (acc.1 + common * common, acc.2.1 + l1 * common,
           acc.2.2.1 + common * l2, acc.2.2.2 + l1 * l2)) acc)
    (0, 0, 0, 0)

/-- Model of `map(lambda x: x[1], sorted(p.items(), key=lambda x: x[0]))`. -/
def sortedVals (p : Pt) : List ℤ :=
  (p.insertionSort (fun a b => a.1 ≤ b.1)).map Prod.snd

/-- Model of `_eta(data)`: empirical entropy with natural log (`Counter`
iterated in first-seen order; probabilities are exact rationals, the entropy a
real). -/
noncomputable def eta (data : List ℤ) : ℝ :=
  if data.length ≤ 1 then 0
  else
    let probs : List ℚ := data.dedup.map
      (fun d => ((data.filter (fun q => decide (q = d))).length : ℚ) / (data.length : ℚ))
    let probs := probs.filter (fun p => decide (0 < p))
    let ent : ℝ := -((probs.map (fun p => if 0 < p then (p : ℝ) * Real.log (p : ℝ) else 0)).sum)
    ent

/-- Model of `_nmi(x, y)`: mutual information of the two label vectors divided
by `sqrt(eta x * eta y)`, with the source's skip guards, returning `-1` when
the entropy product is zero. -/
noncomputable def nmi (x y : List ℤ) : ℝ :=
  let xvals := x.dedup
  let yvals := y.dedup
  let px : List ℚ := xvals.map
    (fun xv => ((x.filter (fun q => decide (q = xv))).length : ℚ) / (x.length : ℚ))
  let py : List ℚ := yvals.map
    (fun yv => ((y.filter (fun q => decide (q = yv))).length : ℚ) / (y.length : ℚ))
  let sum_mi : ℝ := ((xvals.zip px).map
    (fun xp =>
      if xp.2 = 0 then 0
      else
        let sy := ((x.zip y).filter (fun q => decide (q.1 = xp.1))).map Prod.snd
        if sy.length = 0 then 0
        else
          let pxy : List ℚ := yvals.map
            (fun yv => ((sy.filter (fun q => decide (q = yv))).length : ℚ) / (y.length : ℚ))
          ((pxy.zip py).map
            (fun pq =>
              let t : ℚ := if 0 < pq.2 then pq.1 / pq.2 / xp.2 else -1
              if 0 < t then (pq.1 : ℝ) * Real.log (t : ℝ) else 0)).sum)).sum
  let eta_xy := eta x * eta y
  if eta_xy = 0 then -1 else sum_mi / Real.sqrt (eta x * eta y)

/-- Result record of `compare_partitions`. -/
structure CmpRes where
  nmi : ℝ
  rand : ℚ
  jaccard : ℚ

/-- Model of `compare_partitions(p1, p2)`. -/
noncomputable def comparePartitions (p1 p2 : Pt) : CmpRes :=
  let ct := crossTab p1 p2
  let a00 := ct.1
  let a01 := ct.2.1
  let a10 := ct.2.2.1
  let a11 := ct.2.2.2
  { nmi := nmi (sortedVals p1) (sortedVals p2),
    rand := ((a00 + a11 : ℕ) : ℚ) / ((a00 + a01 + a10 + a11 : ℕ) : ℚ),
    jaccard := ((a00 : ℕ) : ℚ) / ((a01 + a10 + a00 : ℕ) : ℚ) }

/-- Specification-side quantity: the total weight of intra-community edges of
`g` under partition `p` (the `E_in` of the spec, self-loops included). -/
def intraWeight (g : Graph) (p : Pt) : ℚ :=
  ((g.edges.filter (fun e => decide (dget p e.1 0 = dget p e.2.1 0))).map (fun e => e.2.2)).sum

/-- Specification-side quantity: the total weight of edges whose endpoints lie
in different communities of `p`. -/
def crossWeight (g : Graph) (p : Pt) : ℚ :=
  ((g.edges.filter (fun e => decide (¬ dget p e.1 0 = dget p e.2.1 0))).map (fun e => e.2.2)).sum

/-- Specification-side quantity: `sum_c internals[c]` over the communities
that currently hold at least one node (`set(node2com.values())`), the reading
of invariant 2 of the spec used by `__get_es` and `__modularity`. -/
def comsInternalsSum (st : Status) : ℚ :=
  (st.coms.map (fun c => dget st.internals c 0)).sum

/-- Unordered match of the community pair `(x, y)` against `(a, b)`. -/
def matchPair (a b x y : ℤ) : Prop := (x = a ∧ y = b) ∨ (x = b ∧ y = a)

instance (a b x y : ℤ) : Decidable (matchPair a b x y) := by
  unfold matchPair; infer_instance

/-- Specification-side quantity: the summed weight of graph edges whose
endpoint communities under `p` are `{a, b}` (the spec's description of the
induced graph's edge weight between `a` and `b`). -/
def specInducedWeight (g : Graph) (p : Pt) (a b : ℤ) : ℚ :=
  ((g.edges.filter
    (fun e => decide (matchPair a b (dget p e.1 0) (dget p e.2.1 0)))).map (fun e => e.2.2)).sum

/-- A fixed interpretation of `math.log` for concrete evaluations whose claim
does not depend on logarithm values. -/
def rlog0 : ℚ → ℚ := fun _ => 0

/-- The Status fields `__one_level` must leave untouched (claim C9 frame):
equality of `gdegrees`, `loops`, `rawnode2degree`, `rawnode2node`, `node2size`
and `total_weight` between two statuses. -/
def fixedFields (st st' : Status) : Prop :=
  st'.gdegrees = st.gdegrees ∧ st'.loops = st.loops ∧
  st'.rawnode2degree = st.rawnode2degree ∧ st'.rawnode2node = st.rawnode2node ∧
  st'.node2size = st.node2size ∧ st'.total_weight = st.total_weight

/-- Concrete input: triangle with a pendant edge (C1 witness). -/
def gA : Graph := { nodes := [0, 1, 2, 3], edges := [(0, 1, 1), (1, 2, 1), (0, 2, 1), (2, 3, 2)] }

/-- Concrete partition on `gA` with keys exactly its nodes. -/
def pA : Pt := [(0, 5), (1, 5), (2, 5), (3, 9)]

/-- Concrete input: path with a self-loop (C2 witness). -/
def gB : Graph := { nodes := [0, 1, 2], edges := [(0, 1, 1), (1, 2, 1), (2, 2, 1)] }

/-- Concrete partition on `gB`. -/
def pB : Pt := [(0, 4), (1, 4), (2, 6)]

/-- Concrete input: a self-loop at node 0 plus the edge 0-1 (C3 failing input). -/
def gLoop : Graph := { nodes := [0, 1], edges := [(0, 0, 1), (0, 1, 1)] }

/-- Concrete initial partition for `gLoop`: each node its own community. -/
def pLoop : Pt := [(0, 0), (1, 1)]

/-- Parameter bag `{'gamma': 1.0}`. -/
def parsGamma1 : Pars := some [(kGamma, 1)]

/-- Concrete input: the spec partition `P1 = {a:0, b:0, c:1, d:1}` with
`a..d` encoded as `0..3` (C4). -/
def pCmp1 : Pt := [(0, 0), (1, 0), (2, 1), (3, 1)]

/-- Concrete input: the spec partition `P2 = {a:0, b:1, c:0, d:1}` (C4). -/
def pCmp2 : Pt := [(0, 0), (1, 1), (2, 0), (3, 1)]

/-- Concrete input: a two-node edgeless graph (C5 and C6). -/
def gNoEdge : Graph := { nodes := [7, 8], edges := [] }

/-- Concrete input: a single edge of weight zero (C5: `Status.init` raises). -/
def gZeroW : Graph := { nodes := [0, 1], edges := [(0, 1, 0)] }

/-- Concrete partition on `gZeroW`. -/
def pZeroW : Pt := [(0, 0), (1, 0)]

/-- Concrete input: the spec's induced-graph example graph (C7 witness). -/
def gQuad : Graph := { nodes := [0, 1, 2, 3], edges := [(0, 1, 1), (1, 2, 1), (2, 3, 1), (0, 2, 1)] }

/-- Concrete partition `{0,1 -> A; 2,3 -> B}` with `A = 10`, `B = 11`. -/
def pQuad : Pt := [(0, 10), (1, 10), (2, 11), (3, 11)]

/-- Concrete input: two edges of weights 3 and 1 (C8 counterexample). -/
def gWeighted : Graph := { nodes := [0, 1, 2, 3], edges := [(0, 1, 3), (2, 3, 1)] }

/-- Concrete partition putting the weight-3 edge across communities. -/
def pWeighted : Pt := [(0, 0), (1, 1), (2, 2), (3, 2)]

/-- Concrete input: a unit-weight path (C8 witness). -/
def gUnit : Graph := { nodes := [0, 1, 2], edges := [(0, 1, 1), (1, 2, 1)] }

/-- Concrete partition on `gUnit`. -/
def pUnit : Pt := [(0, 0), (1, 0), (2, 1)]

/-- Concrete invalid model name used by C5. -/
def mBogus : String := "bogus"

theorem dget_dset {α β : Type} [DecidableEq α] (d : Dict α β) (k k' : α) (v v0 : β) :
    dget (dset d k v) k' v0 = if k = k' then v else dget d k' v0 := by
  induction d with
  | nil => simp only [dset, dget]
  | cons p d ih =>
    by_cases h : p.1 = k
    · by_cases h' : k = k'
      · simp [dset, dget, h, h']
      · have hp : ¬ p.1 = k' := by rw [h]; exact h'
        simp [dset, dget, h, h', hp]
    · by_cases hp : p.1 = k'
      · have h' : ¬ k = k' := fun e => h (by rw [e, hp])
        have h'' : ¬ k' = k := fun e => h' e.symm
        simp [dset, dget, h, hp, h', h'']
      · simp [dset, dget, h, hp, ih]

theorem dsum_dset {α : Type} [DecidableEq α] (d : Dict α ℚ) (k : α) (v : ℚ) :
    dsum (dset d k v) = dsum d + v - dget d k 0 := by
  induction d with
  | nil => simp [dsum, dset, dget]
  | cons p d ih =>
    by_cases h : p.1 = k
    · simp [dsum, dset, dget, h]; ring
    · simp only [dsum, dset, if_neg h, dget, List.map_cons, List.sum_cons] at *
      rw [ih]; ring

theorem dsum_degrees_remove (node com : ℤ) (w : ℚ) (st : Status) :
    dsum (removeNode node com w st).degrees = dsum st.degrees := by
  simp only [removeNode]
  rw [dsum_dset, dsum_dset]
  ring

theorem dsum_degrees_insert (node com : ℤ) (w : ℚ) (st : Status) :
    dsum (insertNode node com w st).degrees = dsum st.degrees := by
  simp only [insertNode]
  rw [dsum_dset, dsum_dset]
  ring

theorem fixedFields_rfl (st : Status) : fixedFields st st :=
  ⟨rfl, rfl, rfl, rfl, rfl, rfl⟩

theorem fixedFields_trans {a b c : Status} (h1 : fixedFields a b) (h2 : fixedFields b c) :
    fixedFields a c := by
  obtain ⟨u1, u2, u3, u4, u5, u6⟩ := h1
  obtain ⟨v1, v2, v3, v4, v5, v6⟩ := h2
  exact ⟨v1.trans u1, v2.trans u2, v3.trans u3, v4.trans u4, v5.trans u5, v6.trans u6⟩

theorem remove_fixedFields (node com : ℤ) (w : ℚ) (st : Status) :
    fixedFields st (removeNode node com w st) := by
  simp only [removeNode]
  exact ⟨rfl, rfl, rfl, rfl, rfl, rfl⟩

theorem insert_fixedFields (node com : ℤ) (w : ℚ) (st : Status) :
    fixedFields st (insertNode node com w st) := by
  simp only [insertNode]
  exact ⟨rfl, rfl, rfl, rfl, rfl, rfl⟩

theorem oneLevelNode_fixedFields (rlog : ℚ → ℚ) (g : Graph) (c : LevelConsts)
    (model : String) (stm : Status × Bool) (node : ℤ) :
    fixedFields stm.1 (oneLevelNode rlog g c model stm node).1 := by
  simp only [oneLevelNode]
  exact fixedFields_trans (remove_fixedFields _ _ _ _) (insert_fixedFields _ _ _ _)

theorem oneLevelNode_dsum_degrees (rlog : ℚ → ℚ) (g : Graph) (c : LevelConsts)
    (model : String) (stm : Status × Bool) (node : ℤ) :
    dsum (oneLevelNode rlog g c model stm node).1.degrees = dsum stm.1.degrees := by
  simp only [oneLevelNode]
  rw [dsum_degrees_insert, dsum_degrees_remove]

theorem foldl_oneLevelNode_fixedFields (rlog : ℚ → ℚ) (g : Graph) (c : LevelConsts)
    (model : String) (order : List ℤ) :
    ∀ stm : Status × Bool,
      fixedFields stm.1 (order.foldl (oneLevelNode rlog g c model) stm).1 := by
  induction order with
  | nil => intro stm; exact fixedFields_rfl _
  | cons x xs ih =>
    intro stm
    exact fixedFields_trans (oneLevelNode_fixedFields rlog g c model stm x) (ih _)

theorem foldl_oneLevelNode_dsum_degrees (rlog : ℚ → ℚ) (g : Graph) (c : LevelConsts)
    (model : String) (order : List ℤ) :
    ∀ stm : Status × Bool,
      dsum (order.foldl (oneLevelNode rlog g c model) stm).1.degrees = dsum stm.1.degrees := by
  induction order with
  | nil => intro stm; rfl
  | cons x xs ih =>
    intro stm
    rw [List.foldl_cons, ih _, oneLevelNode_dsum_degrees]

theorem sweepList_fixedFields (rlog : ℚ → ℚ) (g : Graph) (c : LevelConsts)
    (model : String) (order : List ℤ) (st : Status) :
    fixedFields st (sweepList rlog g c model order st).1 :=
  foldl_oneLevelNode_fixedFields rlog g c model order (st, false)

theorem sweepList_dsum_degrees (rlog : ℚ → ℚ) (g : Graph) (c : LevelConsts)
    (model : String) (order : List ℤ) (st : Status) :
    dsum (sweepList rlog g c model order st).1.degrees = dsum st.degrees :=
  foldl_oneLevelNode_dsum_degrees rlog g c model order (st, false)

theorem oneLevelLoop_fixedFields (rlog : ℚ → ℚ) (g : Graph) (c : LevelConsts)
    (model : String) (pars : Pars) :
    ∀ (fuel : ℕ) (cur_mod : ℚ) (st : Status),
      fixedFields st (oneLevelLoop rlog g c model pars fuel cur_mod st) := by
  intro fuel
  induction fuel with
  | zero => intro cur_mod st; exact fixedFields_rfl _
  | succ n ih =>
    intro cur_mod st
    simp only [oneLevelLoop]
    split
    · split
      · exact sweepList_fixedFields rlog g c model g.nodes st
      · exact fixedFields_trans (sweepList_fixedFields rlog g c model g.nodes st) (ih _ _)
    · exact sweepList_fixedFields rlog g c model g.nodes st

theorem oneLevelLoop_dsum_degrees (rlog : ℚ → ℚ) (g : Graph) (c : LevelConsts)
    (model : String) (pars : Pars) :
    ∀ (fuel : ℕ) (cur_mod : ℚ) (st : Status),
      dsum (oneLevelLoop rlog g c model pars fuel cur_mod st).degrees = dsum st.degrees := by
  intro fuel
  induction fuel with
  | zero => intro cur_mod st; rfl
  | succ n ih =>
    intro cur_mod st
    simp only [oneLevelLoop]
    split
    · split
      · exact sweepList_dsum_degrees rlog g c model g.nodes st
      · rw [ih, sweepList_dsum_degrees]
    · exact sweepList_dsum_degrees rlog g c model g.nodes st

theorem oneLevel_fixedFields (rlog : ℚ → ℚ) (g : Graph) (resolution : ℚ)
    (model : String) (pars : Pars) (fuel : ℕ) (st : Status) :
    fixedFields st (oneLevel rlog g resolution model pars fuel st) :=
  oneLevelLoop_fixedFields rlog g _ model pars fuel _ st

theorem oneLevel_dsum_degrees (rlog : ℚ → ℚ) (g : Graph) (resolution : ℚ)
    (model : String) (pars : Pars) (fuel : ℕ) (st : Status) :
    dsum (oneLevel rlog g resolution model pars fuel st).degrees = dsum st.degrees :=
  oneLevelLoop_dsum_degrees rlog g _ model pars fuel _ st

/-- C9: for every graph and Status, a call to `__one_level` (any model, any
parameter bag, any interpretation of `log`, any fuel) leaves `gdegrees`,
`loops`, `rawnode2degree`, `rawnode2node`, `node2size` and `total_weight`
exactly as they were: only `node2com`, `degrees`, `internals` and `com2size`
are mutated.  The input graph is a pure value in this embedding, so its
immutability is structural. -/
theorem claim9_one_level_frame (rlog : ℚ → ℚ) (g : Graph) (resolution : ℚ)
    (model : String) (pars : Pars) (fuel : ℕ) (st : Status) :
    fixedFields st (oneLevel rlog g resolution model pars fuel st) :=
  oneLevel_fixedFields rlog g resolution model pars fuel st

theorem oneLevel_resolution_eq (rlog : ℚ → ℚ) (g : Graph) (r1 r2 : ℚ) (model : String)
    (pars : Pars) (fuel : ℕ) (st : Status) :
    oneLevel rlog g r1 model pars fuel st = oneLevel rlog g r2 model pars fuel st := rfl

theorem dendrogramLoop_resolution_eq (rlog : ℚ → ℚ) (og : Graph) (r1 r2 : ℚ)
    (model : String) (pars : Pars) (sf : ℕ) :
    ∀ (fuel : ℕ) (sl : List Pt) (m : ℚ) (cg : Graph) (st : Status),
      dendrogramLoop rlog og r1 model pars sf fuel sl m cg st
        = dendrogramLoop rlog og r2 model pars sf fuel sl m cg st := by
  intro fuel
  induction fuel with
  | zero => intro sl m cg st; rfl
  | succ n ih =>
    intro sl m cg st
    simp only [dendrogramLoop]
    rw [oneLevel_resolution_eq rlog cg r1 r2 model pars sf st]
    split
    · rfl
    · rw [ih]

theorem generateDendrogram_resolution_eq (rlog : ℚ → ℚ) (g : Graph) (part : Option Pt)
    (r1 r2 : ℚ) (model : String) (pars : Pars) (sweepFuel fuel : ℕ) :
    generateDendrogram rlog g part r1 model pars sweepFuel fuel
      = generateDendrogram rlog g part r2 model pars sweepFuel fuel := by
  simp only [generateDendrogram]
  split
  · rfl
  · rw [oneLevel_resolution_eq rlog g r1 r2 model pars sweepFuel]
    rw [dendrogramLoop_resolution_eq rlog g r1 r2 model pars sweepFuel]

/-- C10: with `randomize = False`, the `resolution` argument has no influence:
it is handed from `best_partition` through `generate_dendrogram` down to
`__one_level`, whose body never reads it (the objective parameter comes only
from `pars` through `__get_safe_par`), so two calls differing only in
`resolution` return identical results — for every model, parameter bag, `log`
interpretation and fuel. -/
theorem claim10_resolution_unused (rlog : ℚ → ℚ) (g : Graph) (part : Option Pt)
    (r1 r2 : ℚ) (model : String) (pars : Pars) (sweepFuel fuel : ℕ) (st : Status) :
    bestPartition rlog g part r1 model pars sweepFuel fuel
        = bestPartition rlog g part r2 model pars sweepFuel fuel
      ∧ generateDendrogram rlog g part r1 model pars sweepFuel fuel
        = generateDendrogram rlog g part r2 model pars sweepFuel fuel
      ∧ oneLevel rlog g r1 model pars sweepFuel st
        = oneLevel rlog g r2 model pars sweepFuel st := by
  refine ⟨?_, generateDendrogram_resolution_eq rlog g part r1 r2 model pars sweepFuel fuel, rfl⟩
  simp only [bestPartition]
  rw [generateDendrogram_resolution_eq rlog g part r1 r2 model pars sweepFuel fuel]

theorem dget_of_not_mem {α β : Type} [DecidableEq α] (d : Dict α β) (k : α) (v0 : β)
    (h : k ∉ d.map Prod.fst) : dget d k v0 = v0 := by
  induction d with
  | nil => rfl
  | cons p d ih =>
    simp only [List.map_cons, List.mem_cons] at h
    push_neg at h
    have hp : ¬ p.1 = k := fun e => h.1 e.symm
    simp only [dget, if_neg hp]
    exact ih h.2

theorem dkeys_dset {α β : Type} [DecidableEq α] (d : Dict α β) (k : α) (v : β) :
    (dset d k v).map Prod.fst
      = if k ∈ d.map Prod.fst then d.map Prod.fst else d.map Prod.fst ++ [k] := by
  induction d with
  | nil => simp [dset]
  | cons p d ih =>
    by_cases hp : p.1 = k
    · simp [dset, hp]
    · have hk : (k ∈ p.1 :: d.map Prod.fst) = (k ∈ d.map Prod.fst) := by
        simp only [List.mem_cons, eq_iff_iff]
        constructor
        · rintro (h | h)
          · exact absurd h.symm hp
          · exact h
        · exact Or.inr
      have hkp : ¬ k = p.1 := fun e => hp e.symm
      by_cases hm : k ∈ d.map Prod.fst
      · simp [dset, hp, hm, ih, hkp]
      · simp [dset, hp, hm, ih, hkp]

theorem adj_map_snd_sum (g : Graph) (v : ℤ) :
    ((g.adj v).map Prod.snd).sum
      = (g.edges.map (fun e => if e.1 = v then e.2.2 else if e.2.1 = v then e.2.2 else 0)).sum := by
  unfold Graph.adj
  induction g.edges with
  | nil => rfl
  | cons e es ih =>
    by_cases h1 : e.1 = v
    · simp only [List.filterMap_cons, if_pos h1, List.map_cons, List.sum_cons, ih]
    · by_cases h2 : e.2.1 = v
      · simp only [List.filterMap_cons, if_neg h1, if_pos h2, List.map_cons, List.sum_cons, ih]
      · simp only [List.filterMap_cons, if_neg h1, if_neg h2, List.map_cons, List.sum_cons, ih]
        ring

theorem wlook_self_sum (es : List (ℤ × ℤ × ℚ)) (v : ℤ)
    (h : es.Pairwise (fun e1 e2 => ¬ isEdge e1.1 e1.2.1 e2)) :
    wlook es v v = (es.map (fun e => if e.1 = v ∧ e.2.1 = v then e.2.2 else 0)).sum := by
  induction es with
  | nil => rfl
  | cons e es ih =>
    rw [List.pairwise_cons] at h
    by_cases hv : isEdge v v e
    · have he : e.1 = v ∧ e.2.1 = v := by
        rcases hv with ⟨ha, hb⟩ | ⟨ha, hb⟩ <;> exact ⟨ha, hb⟩
      have hz : ∀ x ∈ es.map (fun e => if e.1 = v ∧ e.2.1 = v then e.2.2 else 0), x = 0 := by
        intro x hx
        simp only [List.mem_map] at hx
        obtain ⟨e', he', rfl⟩ := hx
        have hne := h.1 e' he'
        rw [he.1, he.2] at hne
        have : ¬ (e'.1 = v ∧ e'.2.1 = v) := fun hc => hne (Or.inl hc)
        simp [this]
      simp only [wlook, if_pos hv, List.map_cons, List.sum_cons, if_pos he]
      rw [List.sum_eq_zero hz]
      ring
    · have he : ¬ (e.1 = v ∧ e.2.1 = v) := fun hc => hv (Or.inl hc)
      simp only [wlook, if_neg hv, List.map_cons, List.sum_cons, if_neg he]
      rw [ih h.2]
      ring

theorem degree_eq_contrib_sum (g : Graph) (v : ℤ)
    (h : g.edges.Pairwise (fun e1 e2 => ¬ isEdge e1.1 e1.2.1 e2)) :
    g.degree v = (g.edges.map (fun e =>
      (if e.1 = v then e.2.2 else if e.2.1 = v then e.2.2 else 0)
      + (if e.1 = v ∧ e.2.1 = v then e.2.2 else 0))).sum := by
  rw [Graph.degree, adj_map_snd_sum, Graph.edgeWeight, wlook_self_sum g.edges v h,
    ← List.sum_map_add]

theorem sum_if_single (L : List ℤ) (a : ℤ) (c : ℚ) (hnd : L.Nodup) (ha : a ∈ L) :
    (L.map (fun v => if a = v then c else 0)).sum = c := by
  induction L with
  | nil => cases ha
  | cons x xs ih =>
    rw [List.nodup_cons] at hnd
    by_cases hax : a = x
    · subst hax
      have hz : ∀ y ∈ xs.map (fun v => if a = v then c else 0), y = 0 := by
        intro y hy
        simp only [List.mem_map] at hy
        obtain ⟨v, hv, rfl⟩ := hy
        have : ¬ a = v := fun e => hnd.1 (e ▸ hv)
        simp [this]
      simp only [List.map_cons, List.sum_cons, if_pos rfl]
      rw [List.sum_eq_zero hz]
      simp
    · have ha' : a ∈ xs := by
        rcases List.mem_cons.mp ha with h | h
        · exact absurd h hax
        · exact h
      simp only [List.map_cons, List.sum_cons, if_neg hax]
      rw [ih hnd.2 ha']
      ring

theorem sum_if_pair (L : List ℤ) (a b : ℤ) (c : ℚ) (hnd : L.Nodup) (ha : a ∈ L)
    (hb : b ∈ L) (hab : ¬ a = b) :
    (L.map (fun v => if a = v then c else if b = v then c else 0)).sum = c + c := by
  induction L with
  | nil => cases ha
  | cons x xs ih =>
    rw [List.nodup_cons] at hnd
    by_cases hax : a = x
    · have hb' : b ∈ xs := by
        rcases List.mem_cons.mp hb with h | h
        · exact absurd (hax.trans h.symm) hab
        · exact h
      have hmap : xs.map (fun v => if a = v then c else if b = v then c else 0)
          = xs.map (fun v => if b = v then c else 0) := by
        apply List.map_congr_left
        intro v hv
        have : ¬ a = v := fun e => hnd.1 (hax ▸ e ▸ hv)
        simp [this]
      simp only [List.map_cons, List.sum_cons, if_pos hax]
      rw [hmap, sum_if_single xs b c hnd.2 hb']
    · by_cases hbx : b = x
      · have ha' : a ∈ xs := by
          rcases List.mem_cons.mp ha with h | h
          · exact absurd h hax
          · exact h
        have hmap : xs.map (fun v => if a = v then c else if b = v then c else 0)
            = xs.map (fun v => if a = v then c else 0) := by
          apply List.map_congr_left
          intro v hv
          have hbv : ¬ b = v := fun e => hnd.1 (hbx ▸ e ▸ hv)
          by_cases hav : a = v
          · simp [hav]
          · simp [hav, hbv]
        simp only [List.map_cons, List.sum_cons, if_neg hax, if_pos hbx]
        rw [hmap, sum_if_single xs a c hnd.2 ha']
      · have ha' : a ∈ xs := by
          rcases List.mem_cons.mp ha with h | h
          · exact absurd h hax
          · exact h
        have hb' : b ∈ xs := by
          rcases List.mem_cons.mp hb with h | h
          · exact absurd h hbx
          · exact h
        simp only [List.map_cons, List.sum_cons, if_neg hax, if_neg hbx]
        rw [ih hnd.2 ha' hb']
        ring

theorem contrib_vertex_sum (L : List ℤ) (hnd : L.Nodup) (e : ℤ × ℤ × ℚ)
    (h1 : e.1 ∈ L) (h2 : e.2.1 ∈ L) :
    (L.map (fun v =>
      (if e.1 = v then e.2.2 else if e.2.1 = v then e.2.2 else 0)
      + (if e.1 = v ∧ e.2.1 = v then e.2.2 else 0))).sum = 2 * e.2.2 := by
  by_cases hself : e.1 = e.2.1
  · have hmap : L.map (fun v =>
        (if e.1 = v then e.2.2 else if e.2.1 = v then e.2.2 else 0)
        + (if e.1 = v ∧ e.2.1 = v then e.2.2 else 0))
        = L.map (fun v => if e.1 = v then e.2.2 + e.2.2 else 0) := by
      apply List.map_congr_left
      intro v hv
      by_cases hv1 : e.1 = v
      · have hv2 : e.2.1 = v := hself ▸ hv1
        simp [hv1, hv2]
      · have hv2 : ¬ e.2.1 = v := fun h => hv1 (hself ▸ h)
        simp [hv1, hv2]
    rw [hmap, sum_if_single L e.1 (e.2.2 + e.2.2) hnd h1]
    ring
  · have hmap : L.map (fun v =>
        (if e.1 = v then e.2.2 else if e.2.1 = v then e.2.2 else 0)
        + (if e.1 = v ∧ e.2.1 = v then e.2.2 else 0))
        = L.map (fun v => if e.1 = v then e.2.2 else if e.2.1 = v then e.2.2 else 0) := by
      apply List.map_congr_left
      intro v hv
      have : ¬ (e.1 = v ∧ e.2.1 = v) := fun hc => hself (hc.1.trans hc.2.symm)
      simp [this]
    rw [hmap, sum_if_pair L e.1 e.2.1 e.2.2 hnd h1 h2 hself]
    ring

theorem sum_sum_comm {α β : Type} (L : List α) (M : List β) (f : α → β → ℚ) :
    (L.map (fun a => (M.map (f a)).sum)).sum
      = (M.map (fun b => (L.map (fun a => f a b)).sum)).sum := by
  induction L with
  | nil =>
    simp only [List.map_nil, List.sum_nil]
    rw [eq_comm]
    apply List.sum_eq_zero
    intro x hx
    simp only [List.mem_map] at hx
    obtain ⟨b, _, rfl⟩ := hx
    rfl
  | cons a L ih =>
    simp only [List.map_cons, List.sum_cons, ih]
    rw [← List.sum_map_add]

theorem nodes_degree_sum (g : Graph) (h : GraphWF g) :
    (g.nodes.map g.degree).sum = 2 * g.size := by
  obtain ⟨hnd, hmem, huniq⟩ := h
  have h1 : g.nodes.map g.degree = g.nodes.map (fun v => (g.edges.map (fun e =>
      (if e.1 = v then e.2.2 else if e.2.1 = v then e.2.2 else 0)
      + (if e.1 = v ∧ e.2.1 = v then e.2.2 else 0))).sum) :=
    List.map_congr_left (fun v _ => degree_eq_contrib_sum g v huniq)
  rw [h1, sum_sum_comm]
  have h2 : g.edges.map (fun e => (g.nodes.map (fun v =>
      (if e.1 = v then e.2.2 else if e.2.1 = v then e.2.2 else 0)
      + (if e.1 = v ∧ e.2.1 = v then e.2.2 else 0))).sum)
      = g.edges.map (fun e => 2 * e.2.2) :=
    List.map_congr_left (fun e he => contrib_vertex_sum g.nodes hnd e (hmem e he).1 (hmem e he).2)
  rw [h2, Graph.size, List.sum_map_mul_left]

theorem initPart_fold_dsum_degrees (g : Graph) (p : Pt) (rb : Bool) :
    ∀ (L : List ℤ) (a : InitAcc),
      dsum ((L.foldl (initPartStep g p rb) a).degrees)
        = dsum a.degrees + (L.map g.degree).sum := by
  intro L
  induction L with
  | nil => intro a; simp
  | cons x xs ih =>
    intro a
    rw [List.foldl_cons, ih]
    have hd : (initPartStep g p rb a x).degrees
        = dset a.degrees (dget p x 0) (dget a.degrees (dget p x 0) 0 + g.degree x) := rfl
    rw [hd, dsum_dset]
    simp only [List.map_cons, List.sum_cons]
    ring

theorem initNone_fold_dsum_degrees (g : Graph) (rb : Bool) :
    ∀ (L : List ℤ) (a : InitAcc), (∀ k ∈ a.degrees.map Prod.fst, k < a.count) →
      dsum ((L.foldl (initNoneStep g rb) a).degrees)
        = dsum a.degrees + (L.map g.degree).sum := by
  intro L
  induction L with
  | nil => intro a _; simp
  | cons x xs ih =>
    intro a hb
    have hd : (initNoneStep g rb a x).degrees = dset a.degrees a.count (g.degree x) := rfl
    have hc : (initNoneStep g rb a x).count = a.count + 1 := rfl
    have hbound : ∀ k ∈ (initNoneStep g rb a x).degrees.map Prod.fst,
        k < (initNoneStep g rb a x).count := by
      intro k hk
      rw [hd, dkeys_dset] at hk
      rw [hc]
      by_cases hm : a.count ∈ a.degrees.map Prod.fst
      · rw [if_pos hm] at hk
        exact (hb k hk).trans (lt_add_one _)
      · rw [if_neg hm] at hk
        rcases List.mem_append.mp hk with h | h
        · exact (hb k h).trans (lt_add_one _)
        · rw [List.mem_singleton.mp h]
          exact lt_add_one _
    rw [List.foldl_cons, ih _ hbound, hd, dsum_dset, dget_of_not_mem]
    · simp only [List.map_cons, List.sum_cons]
      ring
    · intro hcmem
      exact absurd (hb a.count hcmem) (lt_irrefl _)

theorem statusInit_total_weight (prev : Status) (g : Graph) (part : Option Pt)
    (rp : Option Pt) (rg : Option Graph) :
    (Status.init prev g part rp rg).total_weight = g.size := by
  cases part <;> rfl

theorem statusInit_dsum_degrees (prev : Status) (g : Graph) (part : Option Pt)
    (rp : Option Pt) (rg : Option Graph) (h : GraphWF g) :
    dsum (Status.init prev g part rp rg).degrees = 2 * g.size := by
  cases part with
  | none =>
    have hd : (Status.init prev g none rp rg).degrees
        = ((g.nodes.insertionSort (· ≤ ·)).foldl (initNoneStep g rp.isNone)
            { rawnode2node := [], node2com := [], degrees := [], gdegrees := [],
              internals := [], loops := prev.loops, count := 0 }).degrees := rfl
    rw [hd, initNone_fold_dsum_degrees g rp.isNone _ _ (by intro k hk; cases hk)]
    have hperm : List.Perm ((g.nodes.insertionSort (· ≤ ·)).map g.degree)
        (g.nodes.map g.degree) :=
      (List.perm_insertionSort _ g.nodes).map g.degree
    rw [show dsum ([] : Dict ℤ ℚ) = 0 from rfl, hperm.sum_eq, nodes_degree_sum g h]
    ring
  | some p =>
    have hd : (Status.init prev g (some p) rp rg).degrees
        = (g.nodes.foldl (initPartStep g p rp.isNone)
            { rawnode2node := [], node2com := [], degrees := [], gdegrees := [],
              internals := [], loops := prev.loops, count := 0 }).degrees := rfl
    rw [hd, initPart_fold_dsum_degrees]
    rw [show dsum ([] : Dict ℤ ℚ) = 0 from rfl, nodes_degree_sum g h]
    ring

/-- C2: for a well-formed graph with positive edge weights,
`sum(status.degrees.values()) == 2 * status.total_weight` holds immediately
after `Status.init` (with or without an explicit partition), the sum of
`degrees.values()` is preserved exactly by every `__remove` and every
`__insert` call (the sentinel community `-1` absorbs the parked degree), and
consequently the equation still holds after `__one_level` — for every model,
parameter bag, `log` interpretation, fuel, and sweep order. -/
theorem claim2_degrees_sum_invariant (prev : Status) (g : Graph) (part : Option Pt)
    (rp : Option Pt) (rg : Option Graph) (node com : ℤ) (w : ℚ) (st st2 : Status)
    (rlog : ℚ → ℚ) (resolution : ℚ) (model : String) (pars : Pars) (fuel : ℕ)
    (hwf : GraphWF g) (hpos : PosWeights g) :
    dsum (Status.init prev g part rp rg).degrees
        = 2 * (Status.init prev g part rp rg).total_weight
      ∧ dsum (removeNode node com w st).degrees = dsum st.degrees
      ∧ dsum (insertNode node com w st).degrees = dsum st.degrees
      ∧ (dsum st2.degrees = 2 * st2.total_weight →
          dsum (oneLevel rlog g resolution model pars fuel st2).degrees
            = 2 * (oneLevel rlog g resolution model pars fuel st2).total_weight) := by
  refine ⟨?_, dsum_degrees_remove node com w st, dsum_degrees_insert node com w st, ?_⟩
  · rw [statusInit_dsum_degrees prev g part rp rg hwf, statusInit_total_weight]
  · intro hinv
    rw [oneLevel_dsum_degrees, hinv,
      (oneLevel_fixedFields rlog g resolution model pars fuel st2).2.2.2.2.2]

/-- Witness for C2 at the concrete graph `gB` (a path with a self-loop) and
partition `pB`. -/
theorem claim2_degrees_sum_invariant_witness :
    dsum (Status.init emptyStatus gB (some pB) none none).degrees
        = 2 * (Status.init emptyStatus gB (some pB) none none).total_weight
      ∧ dsum (removeNode 0 4 1 emptyStatus).degrees = dsum emptyStatus.degrees
      ∧ dsum (insertNode 0 4 1 emptyStatus).degrees = dsum emptyStatus.degrees
      ∧ (dsum emptyStatus.degrees = 2 * emptyStatus.total_weight →
          dsum (oneLevel rlog0 gB 1 mDcppm parsGamma1 3 emptyStatus).degrees
            = 2 * (oneLevel rlog0 gB 1 mDcppm parsGamma1 3 emptyStatus).total_weight) :=
  claim2_degrees_sum_invariant emptyStatus gB (some pB) none none 0 4 1 emptyStatus
    emptyStatus rlog0 1 mDcppm parsGamma1 3 (by decide) (by decide)

theorem idPart_fold_dget (L : List ℤ) :
    ∀ (d : Pt) (n : ℤ) (v0 : ℤ),
      dget (L.foldl (fun (p : Pt) x => dset p x x) d) n v0
        = if n ∈ L then n else dget d n v0 := by
  induction L with
  | nil => intro d n v0; simp
  | cons x xs ih =>
    intro d n v0
    rw [List.foldl_cons, ih]
    by_cases hn : n ∈ xs
    · simp [hn]
    · rw [if_neg hn, dget_dset]
      by_cases hx : x = n
      · simp [hx]
      · have : n ∈ x :: xs ↔ n ∈ xs := by
          simp only [List.mem_cons]
          constructor
          · rintro (h | h)
            · exact absurd h.symm hx
            · exact h
          · exact Or.inr
        simp [hx, hn, this]

theorem idPart_dget (g : Graph) (n : ℤ) (v0 : ℤ) (h : n ∈ g.nodes) :
    dget (idPart g) n v0 = n := by
  rw [idPart, idPart_fold_dget, if_pos h]

/-- C6: on a graph with zero edges the public `modularity` raises
(`ValueError`: a graph without link has an undefined modularity), while
`generate_dendrogram` returns exactly one partition — the identity mapping of
every node to itself — for every model, parameter bag, fuel and `log`
interpretation (in particular the same result with zero fuel: no sweep is
involved in producing it). -/
theorem claim6_edgeless_behaviour (g : Graph) (part : Pt) (gamma : ℚ) (rlog : ℚ → ℚ)
    (part_init : Option Pt) (resolution : ℚ) (model : String) (pars : Pars)
    (sweepFuel fuel : ℕ) (h : g.edges = []) :
    modularity part g gamma = Except.error errNoLink
      ∧ generateDendrogram rlog g part_init resolution model pars sweepFuel fuel = [idPart g]
      ∧ generateDendrogram rlog g part_init resolution model pars sweepFuel fuel
          = generateDendrogram rlog g part_init resolution model pars 0 0
      ∧ (∀ n ∈ g.nodes, dget (idPart g) n (n + 1) = n) := by
  have hsize : g.size = 0 := by rw [Graph.size, h]; rfl
  have hnum : g.numberOfEdges = 0 := by rw [Graph.numberOfEdges, h]; rfl
  refine ⟨?_, ?_, ?_, ?_⟩
  · rw [modularity, hsize]; rfl
  · rw [generateDendrogram, if_pos hnum]
  · rw [generateDendrogram, if_pos hnum, generateDendrogram, if_pos hnum]
  · intro n hn
    exact idPart_dget g n (n + 1) hn

/-- Witness for C6 at the concrete edgeless graph `gNoEdge`. -/
theorem claim6_edgeless_behaviour_witness :
    modularity pZeroW gNoEdge 1 = Except.error errNoLink
      ∧ generateDendrogram rlog0 gNoEdge none 1 mPpm none 4 4 = [idPart gNoEdge]
      ∧ generateDendrogram rlog0 gNoEdge none 1 mPpm none 4 4
          = generateDendrogram rlog0 gNoEdge none 1 mPpm none 0 0
      ∧ (∀ n ∈ gNoEdge.nodes, dget (idPart gNoEdge) n (n + 1) = n) :=
  claim6_edgeless_behaviour gNoEdge pZeroW 1 rlog0 none 1 mPpm none 4 4 rfl

/-- Counterexample to C5 as stated: with the unknown model name `"bogus"`,
`model_log_likelihood` on a graph with a zero-weight edge fails with the
`Status.init` weight error — the graph copy and Status initialization are
computations performed before the model-name assertion — and
`generate_dendrogram` performs no model-name validation at all: on an
edgeless graph it returns its normal result. -/
theorem claim5_counterexample :
    modelLogLikelihood rlog0 gZeroW (some pZeroW) mBogus none = Except.error errBadGraph
      ∧ ¬ modelLogLikelihood rlog0 gZeroW (some pZeroW) mBogus none
          = Except.error errUnknownModel
      ∧ generateDendrogram rlog0 gNoEdge none 1 mBogus none 1 1 = [idPart gNoEdge] := by
  refine ⟨rfl, ?_, rfl⟩
  intro hc
  rw [show modelLogLikelihood rlog0 gZeroW (some pZeroW) mBogus none
      = Except.error errBadGraph from rfl] at hc
  simp only [Except.error.injEq, errBadGraph, errUnknownModel] at hc
  exact absurd hc (by decide)

/-- C5 amended: `best_partition` rejects an unknown model name at entry before
any computation; `model_log_likelihood` also rejects it, but only after
copying the graph and running `Status.init` (so a bad-weight error from init
preempts the model-name error); `generate_dendrogram` performs no model-name
validation (on an edgeless graph it returns its normal result for any model
name). -/
theorem claim5_model_validation (rlog : ℚ → ℚ) (g : Graph) (p : Option Pt) (r : ℚ)
    (model : String) (pars : Pars) (sf fuel : ℕ) (hm : model ∉ allowedModels) :
    bestPartition rlog g p r model pars sf fuel = Except.error errUnknownModel
      ∧ (statusInitOk g p = false →
          modelLogLikelihood rlog g p model pars = Except.error errBadGraph)
      ∧ (statusInitOk g p = true →
          modelLogLikelihood rlog g p model pars = Except.error errUnknownModel)
      ∧ (g.edges = [] → generateDendrogram rlog g p r model pars sf fuel = [idPart g]) := by
  refine ⟨?_, ?_, ?_, ?_⟩
  · rw [bestPartition, if_neg hm]
  · intro h
    rw [modelLogLikelihood, if_pos h]
  · intro h
    rw [modelLogLikelihood, if_neg (by rw [h]; decide), if_neg hm]
  · intro h
    have hnum : g.numberOfEdges = 0 := by rw [Graph.numberOfEdges, h]; rfl
    rw [generateDendrogram, if_pos hnum]

/-- Witness for the amended C5 at the unknown model name `"bogus"`. -/
theorem claim5_model_validation_witness :
    bestPartition rlog0 gZeroW (some pZeroW) 1 mBogus none 2 2
          = Except.error errUnknownModel
      ∧ (statusInitOk gZeroW (some pZeroW) = false →
          modelLogLikelihood rlog0 gZeroW (some pZeroW) mBogus none
            = Except.error errBadGraph)
      ∧ (statusInitOk gZeroW (some pZeroW) = true →
          modelLogLikelihood rlog0 gZeroW (some pZeroW) mBogus none
            = Except.error errUnknownModel)
      ∧ (gZeroW.edges = [] →
          generateDendrogram rlog0 gZeroW (some pZeroW) 1 mBogus none 2 2
            = [idPart gZeroW]) :=
  claim5_model_validation rlog0 gZeroW (some pZeroW) 1 mBogus none 2 2 (by decide)

theorem incAcc_fold (adjl : List (ℤ × ℚ)) (p : Pt) (com node : ℤ) :
    ∀ q0 : ℚ, adjl.foldl (fun (inc : ℚ) q =>
        if dget p q.1 0 = com then (if q.1 = node then inc + q.2 else inc + q.2 / 2) else inc) q0
      = q0 + (adjl.map (fun q =>
          if dget p q.1 0 = com then (if q.1 = node then q.2 else q.2 / 2) else 0)).sum := by
  induction adjl with
  | nil => intro q0; simp
  | cons a l ih =>
    intro q0
    rw [List.foldl_cons]
    by_cases h1 : dget p a.1 0 = com
    · by_cases h2 : a.1 = node
      · rw [if_pos h1, if_pos h2, ih]
        simp only [List.map_cons, List.sum_cons, if_pos h1, if_pos h2]
        ring
      · rw [if_pos h1, if_neg h2, ih]
        simp only [List.map_cons, List.sum_cons, if_pos h1, if_neg h2]
        ring
    · rw [if_neg h1, ih]
      simp only [List.map_cons, List.sum_cons, if_neg h1]
      ring

theorem incDict_fold (adjl : List (ℤ × ℚ)) (p : Pt) (com node : ℤ) :
    ∀ (d : Dict ℤ ℚ) (c : ℤ),
      dget (adjl.foldl (fun (inc : Dict ℤ ℚ) q =>
        if dget p q.1 0 = com then
          (if q.1 = node then dset inc com (dget inc com 0 + q.2)
           else dset inc com (dget inc com 0 + q.2 / 2))
        else inc) d) c 0
      = dget d c 0 + (if c = com then (adjl.map (fun q =>
          if dget p q.1 0 = com then (if q.1 = node then q.2 else q.2 / 2) else 0)).sum else 0) := by
  induction adjl with
  | nil => intro d c; by_cases hc : c = com <;> simp [hc]
  | cons a l ih =>
    intro d c
    rw [List.foldl_cons]
    by_cases h1 : dget p a.1 0 = com
    · by_cases h2 : a.1 = node
      · rw [if_pos h1, if_pos h2, ih, dget_dset]
        by_cases hc : c = com
        · simp only [List.map_cons, List.sum_cons, if_pos h1, if_pos h2, if_pos hc,
            if_pos hc.symm, hc, if_true, eq_self_iff_true]
          ring
        · have hc' : ¬ com = c := fun e => hc e.symm
          simp only [List.map_cons, List.sum_cons, if_neg hc, if_neg hc']
      · rw [if_pos h1, if_neg h2, ih, dget_dset]
        by_cases hc : c = com
        · simp only [List.map_cons, List.sum_cons, if_pos h1, if_neg h2, if_pos hc,
            if_pos hc.symm, hc, if_true, eq_self_iff_true]
          ring
        · have hc' : ¬ com = c := fun e => hc e.symm
          simp only [List.map_cons, List.sum_cons, if_neg hc, if_neg hc']
    · rw [if_neg h1, ih]
      simp only [List.map_cons, List.sum_cons, if_neg h1, zero_add]

theorem initPart_vs_modularityDicts (g : Graph) (p : Pt) :
    ∀ (L : List ℤ) (a : InitAcc) (acc : Dict ℤ ℚ × Dict ℤ ℚ),
      (∀ c, dget a.internals c 0 = dget acc.1 c 0) →
      (∀ c, dget a.degrees c 0 = dget acc.2 c 0) →
      (∀ c, dget ((L.foldl (initPartStep g p true) a).internals) c 0
          = dget ((L.foldl (fun (acc : Dict ℤ ℚ × Dict ℤ ℚ) node =>
              let com := dget p node 0
              let deg := dset acc.2 com (dget acc.2 com 0 + g.degree node)
              let inc := (g.adj node).foldl
                (fun (inc : Dict ℤ ℚ) q =>
                  if dget p q.1 0 = com then
                    (if q.1 = node then dset inc com (dget inc com 0 + q.2)
                     else dset inc com (dget inc com 0 + q.2 / 2))
                  else inc) acc.1
              (inc, deg)) acc).1) c 0)
      ∧ (∀ c, dget ((L.foldl (initPartStep g p true) a).degrees) c 0
          = dget ((L.foldl (fun (acc : Dict ℤ ℚ × Dict ℤ ℚ) node =>
              let com := dget p node 0
              let deg := dset acc.2 com (dget acc.2 com 0 + g.degree node)
              let inc := (g.adj node).foldl
                (fun (inc : Dict ℤ ℚ) q =>
                  if dget p q.1 0 = com then
                    (if q.1 = node then dset inc com (dget inc com 0 + q.2)
                     else dset inc com (dget inc com 0 + q.2 / 2))
                  else inc) acc.1
              (inc, deg)) acc).2) c 0) := by
  intro L
  induction L with
  | nil => intro a acc hint hdeg; exact ⟨hint, hdeg⟩
  | cons x xs ih =>
    intro a acc hint hdeg
    rw [List.foldl_cons, List.foldl_cons]
    apply ih
    · intro c
      have ha : (initPartStep g p true a x).internals
          = dset a.internals (dget p x 0) (dget a.internals (dget p x 0) 0
              + (g.adj x).foldl (fun (inc : ℚ) q =>
                  if dget p q.1 0 = dget p x 0 then
                    (if q.1 = x then inc + q.2 else inc + q.2 / 2) else inc) 0) := rfl
      rw [ha, dget_dset, incAcc_fold, incDict_fold, hint c]
      by_cases hc : dget p x 0 = c
      · rw [if_pos hc, if_pos hc.symm, hint (dget p x 0), hc]
        ring
      · have hc' : ¬ c = dget p x 0 := fun e => hc e.symm
        rw [if_neg hc, if_neg hc']
        ring
    · intro c
      have ha : (initPartStep g p true a x).degrees
          = dset a.degrees (dget p x 0) (dget a.degrees (dget p x 0) 0 + g.degree x) := rfl
      rw [ha, dget_dset, dget_dset, hdeg c, hdeg (dget p x 0)]

theorem fold_node2com_initPart (g : Graph) (p : Pt) (rb : Bool) :
    ∀ (L : List ℤ) (a : InitAcc),
      (L.foldl (initPartStep g p rb) a).node2com
        = L.foldl (fun (d : Dict ℤ ℤ) x => dset d x (dget p x 0)) a.node2com := by
  intro L
  induction L with
  | nil => intro a; rfl
  | cons x xs ih =>
    intro a
    rw [List.foldl_cons, List.foldl_cons, ih]
    rfl

theorem dset_append_of_not_mem {α β : Type} [DecidableEq α] (d : Dict α β) (k : α) (v : β)
    (h : k ∉ d.map Prod.fst) : dset d k v = d ++ [(k, v)] := by
  induction d with
  | nil => rfl
  | cons q d ih =>
    simp only [List.map_cons, List.mem_cons] at h
    push_neg at h
    have hq : ¬ q.1 = k := fun e => h.1 e.symm
    simp only [dset, if_neg hq, List.cons_append]
    rw [ih h.2]

theorem fold_dset_map (f : ℤ → ℤ) :
    ∀ (L : List ℤ) (d : Dict ℤ ℤ), (∀ x ∈ L, x ∉ d.map Prod.fst) → L.Nodup →
      L.foldl (fun (d : Dict ℤ ℤ) x => dset d x (f x)) d = d ++ L.map (fun x => (x, f x)) := by
  intro L
  induction L with
  | nil => intro d _ _; simp
  | cons x xs ih =>
    intro d hdom hnd
    rw [List.nodup_cons] at hnd
    rw [List.foldl_cons, dset_append_of_not_mem d x (f x) (hdom x (List.mem_cons_self x xs))]
    have hdom' : ∀ y ∈ xs, y ∉ (d ++ [(x, f x)]).map Prod.fst := by
      intro y hy
      rw [List.map_append, List.mem_append]
      rintro (h | h)
      · exact hdom y (List.mem_cons_of_mem x hy) h
      · simp only [List.map_cons, List.map_nil, List.mem_singleton] at h
        exact hnd.1 (h ▸ hy)
    rw [ih (d ++ [(x, f x)]) hdom' hnd.2, List.append_assoc]
    rfl

theorem dget_of_mem_nodupKeys {α β : Type} [DecidableEq α] (d : Dict α β) (v0 : β)
    (h : (d.map Prod.fst).Nodup) : ∀ q ∈ d, dget d q.1 v0 = q.2 := by
  induction d with
  | nil => intro q hq; cases hq
  | cons p d ih =>
    rw [List.map_cons, List.nodup_cons] at h
    intro q hq
    rcases List.mem_cons.mp hq with rfl | hq'
    · simp [dget]
    · have hne : ¬ p.1 = q.1 := by
        intro e
        exact h.1 (e ▸ List.mem_map_of_mem Prod.fst hq')
      simp only [dget, if_neg hne]
      exact ih h.2 q hq'

theorem part_values_eq (g : Graph) (p : Pt) (hkeys : p.map Prod.fst = g.nodes)
    (hnd : g.nodes.Nodup) :
    g.nodes.map (fun x => dget p x 0) = p.map Prod.snd := by
  have hknd : (p.map Prod.fst).Nodup := by rw [hkeys]; exact hnd
  rw [← hkeys, List.map_map]
  apply List.map_congr_left
  intro q hq
  exact dget_of_mem_nodupKeys p 0 hknd q hq

theorem statusInit_node2com_part (g : Graph) (p : Pt) (hnd : g.nodes.Nodup) :
    (Status.init emptyStatus g (some p) none none).node2com
      = g.nodes.map (fun x => (x, dget p x 0)) := by
  have h0 : (Status.init emptyStatus g (some p) none none).node2com
      = (g.nodes.foldl (initPartStep g p true)
          { rawnode2node := [], node2com := [], degrees := [], gdegrees := [],
            internals := [], loops := emptyStatus.loops, count := 0 }).node2com := rfl
  rw [h0, fold_node2com_initPart]
  exact fold_dset_map _ g.nodes [] (by intro x _ hx; cases hx) hnd

theorem size_pos_of_posWeights (g : Graph) (hpos : PosWeights g) (hne : ¬ g.edges = []) :
    0 < g.size := by
  rw [Graph.size]
  apply List.sum_pos
  · intro x hx
    simp only [List.mem_map] at hx
    obtain ⟨e, he, rfl⟩ := hx
    exact hpos e he
  · rw [Ne, List.map_eq_nil_iff]
    exact hne

theorem getSafePar_dcppm_one : getSafePar mDcppm parsGamma1 = 1 := by
  have hne : ([(kGamma, (1 : ℚ))] : Dict String ℚ).isEmpty = false := rfl
  have h1 : ¬ (mDcppm = mIlfrs ∨ mDcppm = mIlfr) := by decide
  have h2 : mDcppm = mDcppm ∨ mDcppm = mPpm := Or.inl rfl
  simp only [getSafePar, parsGamma1, hne, Bool.false_eq_true, if_false, if_neg h1, if_pos h2]
  have h3 : dget [(kGamma, (1 : ℚ))] kGamma 1 = 1 := by simp [dget]
  rw [h3]
  have : minEps ≤ 1 := by norm_num [minEps]
  exact max_eq_left this

theorem statusInit_internals_dget (g : Graph) (p : Pt) :
    ∀ c, dget (Status.init emptyStatus g (some p) none none).internals c 0
        = dget (modularityDicts g p).1 c 0 :=
  (initPart_vs_modularityDicts g p g.nodes _ _ (fun _ => rfl) (fun _ => rfl)).1

theorem statusInit_degrees_dget (g : Graph) (p : Pt) :
    ∀ c, dget (Status.init emptyStatus g (some p) none none).degrees c 0
        = dget (modularityDicts g p).2 c 0 :=
  (initPart_vs_modularityDicts g p g.nodes _ _ (fun _ => rfl) (fun _ => rfl)).2

theorem statusInit_coms_part (g : Graph) (p : Pt) (hkeys : p.map Prod.fst = g.nodes)
    (hnd : g.nodes.Nodup) :
    (Status.init emptyStatus g (some p) none none).coms = (p.map Prod.snd).dedup := by
  show ((Status.init emptyStatus g (some p) none none).node2com.map Prod.snd).dedup = _
  rw [statusInit_node2com_part g p hnd, List.map_map]
  rw [show (Prod.snd ∘ fun x : ℤ => (x, dget p x 0)) = fun x => dget p x 0 from rfl]
  rw [part_values_eq g p hkeys hnd]

/-- C1: for a well-formed graph with positive weights, at least one edge, and
a partition defined on exactly the nodes of the graph, the public
`modularity(partition, graph, gamma=1)` succeeds, and the internal DCPPM
objective `__modularity(status, model='dcppm', pars={'gamma': 1})` computed
from `Status.init` over `(G, P)` agrees with it to within `1e-9` (the two
values are in fact exactly equal, the difference being `0`). -/
theorem claim1_dcppm_matches_modularity (rlog : ℚ → ℚ) (g : Graph) (p : Pt)
    (hwf : GraphWF g) (hkeys : p.map Prod.fst = g.nodes) (hpos : PosWeights g)
    (hne : ¬ g.edges = []) :
    modularity p g 1 = Except.ok (modularityVal p g 1)
      ∧ |internalModularity rlog (Status.init emptyStatus g (some p) none none) mDcppm
            parsGamma1 - modularityVal p g 1| ≤ 1 / 1000000000 := by
  have h0 : 0 < g.size := size_pos_of_posWeights g hpos hne
  constructor
  · simp only [modularity]
    rw [if_neg h0.ne']
  · have heq : internalModularity rlog (Status.init emptyStatus g (some p) none none) mDcppm
        parsGamma1 = modularityVal p g 1 := by
      have hco := statusInit_coms_part g p hkeys hwf.1
      have hint := statusInit_internals_dget g p
      have hdeg := statusInit_degrees_dget g p
      have htw : (Status.init emptyStatus g (some p) none none).total_weight = g.size := rfl
      simp only [internalModularity, modularityVal, if_true]
      rw [getSafePar_dcppm_one, hco, htw]
      apply congrArg List.sum
      apply List.map_congr_left
      intro c _
      rw [if_pos h0, hint c, hdeg c]
    rw [heq, sub_self, abs_zero]
    norm_num

/-- Witness for C1 at the concrete graph `gA` and partition `pA`. -/
theorem claim1_dcppm_matches_modularity_witness :
    modularity pA gA 1 = Except.ok (modularityVal pA gA 1)
      ∧ |internalModularity rlog0 (Status.init emptyStatus gA (some pA) none none) mDcppm
            parsGamma1 - modularityVal pA gA 1| ≤ 1 / 1000000000 :=
  claim1_dcppm_matches_modularity rlog0 gA pA (by decide) (by decide) (by decide) (by decide)

set_option maxHeartbeats 1000000 in
theorem gLoop_init_eval :
    Status.init emptyStatus gLoop (some pLoop) none none
      = { node2com := [(0, 0), (1, 1)], total_weight := 2,
          degrees := [(0, 3), (1, 1)], gdegrees := [(0, 3), (1, 1)],
          internals := [(0, 1), (1, 0)], loops := [],
          rawnode2node := [(0, 0), (1, 1)], rawnode2degree := [(0, 3), (1, 1)],
          com2size := [(0, 1), (1, 1)], node2size := [(0, 1), (1, 1)] } := by
  norm_num [Status.init, initPartStep, Graph.adj, Graph.degree, Graph.edgeWeight, wlook,
    Graph.size, isEdge, dget, dset, gLoop, pLoop, emptyStatus, Option.isNone, Option.getD,
    List.filterMap_cons, List.dedup_cons_of_mem, List.dedup_cons_of_not_mem, List.dedup_nil]

set_option maxHeartbeats 1000000 in
/-- C3 (code-bug evidence): on `gLoop` (self-loop of weight 1 at node 0 plus
the edge 0-1 of weight 1) with the explicit initial partition `{0: 0, 1: 1}`,
the first remove/insert pair of the DCPPM sweep moves node 0 into community 1,
after which `sum_c internals[c]` over the communities holding nodes is `1`
while `total_weight - (weight of cross-community edges) = 2 - 0 = 2`: the
invariant of the claim fails, because the explicit-partition branch of
`Status.init` never populates `status.loops` and the remove/insert pair
therefore drops the moved node's self-loop weight from `internals`. -/
theorem claim3_internals_invariant_violated :
    comsInternalsSum (oneLevelNode rlog0 gLoop
          (levelConsts rlog0 mDcppm parsGamma1
            (Status.init emptyStatus gLoop (some pLoop) none none))
          mDcppm (Status.init emptyStatus gLoop (some pLoop) none none, false) 0).1 = 1
      ∧ (oneLevelNode rlog0 gLoop
          (levelConsts rlog0 mDcppm parsGamma1
            (Status.init emptyStatus gLoop (some pLoop) none none))
          mDcppm (Status.init emptyStatus gLoop (some pLoop) none none, false) 0).1.total_weight
          - crossWeight gLoop (oneLevelNode rlog0 gLoop
              (levelConsts rlog0 mDcppm parsGamma1
                (Status.init emptyStatus gLoop (some pLoop) none none))
              mDcppm (Status.init emptyStatus gLoop (some pLoop) none none, false) 0).1.node2com
          = 2
      ∧ ¬ comsInternalsSum (oneLevelNode rlog0 gLoop
            (levelConsts rlog0 mDcppm parsGamma1
              (Status.init emptyStatus gLoop (some pLoop) none none))
            mDcppm (Status.init emptyStatus gLoop (some pLoop) none none, false) 0).1
          = (oneLevelNode rlog0 gLoop
              (levelConsts rlog0 mDcppm parsGamma1
                (Status.init emptyStatus gLoop (some pLoop) none none))
              mDcppm (Status.init emptyStatus gLoop (some pLoop) none none, false) 0).1.total_weight
            - crossWeight gLoop (oneLevelNode rlog0 gLoop
                (levelConsts rlog0 mDcppm parsGamma1
                  (Status.init emptyStatus gLoop (some pLoop) none none))
                mDcppm (Status.init emptyStatus gLoop (some pLoop) none none, false) 0).1.node2com := by
  have hstep : (oneLevelNode rlog0 gLoop
      (levelConsts rlog0 mDcppm parsGamma1
        (Status.init emptyStatus gLoop (some pLoop) none none))
      mDcppm (Status.init emptyStatus gLoop (some pLoop) none none, false) 0).1
      = { node2com := [(0, 1), (1, 1)], total_weight := 2,
          degrees := [(0, 0), (1, 4), (-1, 0)], gdegrees := [(0, 3), (1, 1)],
          internals := [(0, 1), (1, 1), (-1, 0)], loops := [],
          rawnode2node := [(0, 0), (1, 1)], rawnode2degree := [(0, 3), (1, 1)],
          com2size := [(0, 0), (1, 2)], node2size := [(0, 1), (1, 1)] } := by
    rw [gLoop_init_eval]
    norm_num [oneLevelNode, neighcom, removeCost, addCost, removeNode, insertNode,
      levelConsts, getSafePar_dcppm_one, Status.p2, Graph.adj, Graph.edgeWeight, wlook,
      isEdge, dget, dset, gLoop, pLoop, rlog0, minEps, List.filterMap_cons,
      show ¬ mDcppm = mIlfrs from by decide, show ¬ mDcppm = mIlfr from by decide,
      show ¬ mDcppm = mPpm from by decide]
  rw [hstep]
  norm_num [comsInternalsSum, Status.coms, crossWeight, dget, gLoop, pLoop,
    List.dedup_cons_of_mem, List.dedup_cons_of_not_mem, isEdge]

theorem isEdge_iff_matchPair (a b : ℤ) (e : ℤ × ℤ × ℚ) :
    isEdge a b e ↔ matchPair a b e.1 e.2.1 := Iff.rfl

theorem matchPair_symm_args {a b x y : ℤ} (h : matchPair a b x y) :
    ∀ e : ℤ × ℤ × ℚ, isEdge a b e ↔ isEdge x y e := by
  intro e
  rcases h with ⟨rfl, rfl⟩ | ⟨rfl, rfl⟩
  · exact Iff.rfl
  · unfold isEdge
    exact or_comm

theorem wlook_congr {a b x y : ℤ} (h : matchPair a b x y) (es : List (ℤ × ℤ × ℚ)) :
    wlook es x y = wlook es a b := by
  induction es with
  | nil => rfl
  | cons e es ih =>
    simp only [wlook]
    by_cases he : isEdge a b e
    · rw [if_pos he, if_pos ((matchPair_symm_args h e).mp he)]
    · rw [if_neg he, if_neg (fun hc => he ((matchPair_symm_args h e).mpr hc)), ih]

theorem wlook_setEdge (es : List (ℤ × ℤ × ℚ)) (a b x y : ℤ) (w : ℚ) :
    wlook (setEdge es a b w) x y
      = if matchPair x y a b then w else wlook es x y := by
  induction es with
  | nil =>
    simp only [setEdge, wlook]
    by_cases h : matchPair x y a b
    · rw [if_pos h, if_pos ((isEdge_iff_matchPair x y (a, b, w)).mpr h)]
    · rw [if_neg h, if_neg (fun hc => h ((isEdge_iff_matchPair x y (a, b, w)).mp hc))]
  | cons e es ih =>
    by_cases hab : isEdge a b e
    · simp only [setEdge, if_pos hab, wlook]
      by_cases hxy : matchPair x y a b
      · have h1 : isEdge x y e := by
          have := matchPair_symm_args ((isEdge_iff_matchPair a b e).mp hab) e
          rcases hxy with ⟨rfl, rfl⟩ | ⟨rfl, rfl⟩
          · exact hab
          · unfold isEdge at hab ⊢
            tauto
        have h2 : isEdge x y (e.1, e.2.1, w) := h1
        rw [if_pos h2, if_pos hxy]
      · have h1 : ¬ isEdge x y e := by
          intro hc
          apply hxy
          unfold isEdge at hab hc
          unfold matchPair
          rcases hab with ⟨ha, hb⟩ | ⟨ha, hb⟩ <;> rcases hc with ⟨hx, hy⟩ | ⟨hx, hy⟩ <;> omega
        have h2 : ¬ isEdge x y (e.1, e.2.1, w) := h1
        rw [if_neg h2, if_neg h1, if_neg hxy]
    · simp only [setEdge, if_neg hab, wlook]
      by_cases hxe : isEdge x y e
      · rw [if_pos hxe]
        by_cases hxy : matchPair x y a b
        · exfalso
          apply hab
          exact (matchPair_symm_args hxy e).mp hxe
        · rw [if_neg hxy, if_pos hxe]
      · rw [if_neg hxe, ih]
        by_cases hxy : matchPair x y a b
        · rw [if_pos hxy, if_pos hxy]
        · rw [if_neg hxy, if_neg hxy, if_neg hxe]

theorem setEdge_sum (es : List (ℤ × ℤ × ℚ)) (a b : ℤ) (w : ℚ) :
    ((setEdge es a b w).map (fun e => e.2.2)).sum
      = (es.map (fun e => e.2.2)).sum + w - wlook es a b := by
  induction es with
  | nil => simp [setEdge, wlook]
  | cons e es ih =>
    by_cases hab : isEdge a b e
    · simp only [setEdge, if_pos hab, wlook, List.map_cons, List.sum_cons]
      ring
    · simp only [setEdge, if_neg hab, wlook, List.map_cons, List.sum_cons, ih]
      ring

theorem dget_mem_values {α β : Type} [DecidableEq α] (d : Dict α β) (k : α) (v0 : β)
    (h : k ∈ d.map Prod.fst) : dget d k v0 ∈ d.map Prod.snd := by
  induction d with
  | nil => cases h
  | cons p d ih =>
    by_cases hp : p.1 = k
    · simp [dget, hp]
    · simp only [List.map_cons, List.mem_cons] at h
      rcases h with h | h
      · exact absurd h.symm hp
      · simp only [dget, if_neg hp, List.map_cons, List.mem_cons]
        exact Or.inr (ih h)

theorem inducedStep_nodes (p : Pt) (ret : Graph) (e : ℤ × ℤ × ℚ)
    (h1 : dget p e.1 0 ∈ ret.nodes) (h2 : dget p e.2.1 0 ∈ ret.nodes) :
    (inducedStep p ret e).nodes = ret.nodes := by
  simp only [inducedStep, addNode, if_pos h1]
  rw [if_pos h2]

theorem inducedFold_nodes (p : Pt) :
    ∀ (es : List (ℤ × ℤ × ℚ)) (ret : Graph),
      (∀ e ∈ es, dget p e.1 0 ∈ ret.nodes ∧ dget p e.2.1 0 ∈ ret.nodes) →
      (es.foldl (inducedStep p) ret).nodes = ret.nodes := by
  intro es
  induction es with
  | nil => intro ret _; rfl
  | cons e es ih =>
    intro ret hmem
    have he := hmem e (List.mem_cons_self e es)
    have hn := inducedStep_nodes p ret e he.1 he.2
    rw [List.foldl_cons, ih (inducedStep p ret e) (fun q hq => by
      rw [hn]; exact hmem q (List.mem_cons_of_mem e hq)), hn]

theorem inducedFold_wlook (p : Pt) (a b : ℤ) :
    ∀ (es : List (ℤ × ℤ × ℚ)) (ret : Graph),
      wlook ((es.foldl (inducedStep p) ret).edges) a b
        = wlook ret.edges a b
          + ((es.filter (fun e =>
              decide (matchPair a b (dget p e.1 0) (dget p e.2.1 0)))).map
                (fun e => e.2.2)).sum := by
  intro es
  induction es with
  | nil => intro ret; simp
  | cons e es ih =>
    intro ret
    rw [List.foldl_cons, ih]
    have hw : wlook ((inducedStep p ret e).edges) a b
        = if matchPair a b (dget p e.1 0) (dget p e.2.1 0) then
            wlook ret.edges (dget p e.1 0) (dget p e.2.1 0) + e.2.2
          else wlook ret.edges a b := by
      simp only [inducedStep]
      rw [wlook_setEdge]
    rw [hw]
    by_cases hm : matchPair a b (dget p e.1 0) (dget p e.2.1 0)
    · rw [if_pos hm, wlook_congr hm ret.edges]
      simp only [List.filter_cons, decide_eq_true_eq, if_pos hm, List.map_cons, List.sum_cons]
      ring
    · rw [if_neg hm]
      simp only [List.filter_cons, decide_eq_true_eq, if_neg hm]

theorem inducedFold_size (p : Pt) :
    ∀ (es : List (ℤ × ℤ × ℚ)) (ret : Graph),
      (((es.foldl (inducedStep p) ret).edges).map (fun e => e.2.2)).sum
        = (ret.edges.map (fun e => e.2.2)).sum + (es.map (fun e => e.2.2)).sum := by
  intro es
  induction es with
  | nil => intro ret; simp
  | cons e es ih =>
    intro ret
    rw [List.foldl_cons, ih]
    have hs : (((inducedStep p ret e).edges).map (fun q => q.2.2)).sum
        = (ret.edges.map (fun q => q.2.2)).sum + e.2.2 := by
      simp only [inducedStep]
      rw [setEdge_sum]
      ring
    rw [hs]
    simp only [List.map_cons, List.sum_cons]
    ring

/-- C7: for every graph and partition defined on (at least) all endpoint
nodes, `induced_graph(P, G)` has as vertex list the deduplicated codomain of
`P`, its edge weight between communities `(a, b)` is the summed weight of the
edges of `G` whose endpoint communities are `{a, b}`, and its total edge
weight equals the total edge weight of `G` (in particular for
`P = renumber(partition)`). -/
theorem claim7_induced_graph (g : Graph) (p : Pt) (a b : ℤ)
    (hdom : ∀ e ∈ g.edges, e.1 ∈ p.map Prod.fst ∧ e.2.1 ∈ p.map Prod.fst) :
    (inducedGraph p g).nodes = (p.map Prod.snd).dedup
      ∧ (inducedGraph p g).edgeWeight a b = specInducedWeight g p a b
      ∧ (inducedGraph p g).size = g.size := by
  refine ⟨?_, ?_, ?_⟩
  · rw [inducedGraph]
    apply inducedFold_nodes
    intro e he
    constructor
    · exact List.mem_dedup.mpr (dget_mem_values p e.1 0 (hdom e he).1)
    · exact List.mem_dedup.mpr (dget_mem_values p e.2.1 0 (hdom e he).2)
  · rw [Graph.edgeWeight, inducedGraph, inducedFold_wlook]
    rw [show wlook ([] : List (ℤ × ℤ × ℚ)) a b = 0 from rfl, specInducedWeight]
    ring
  · rw [Graph.size, inducedGraph, inducedFold_size]
    rw [show (([] : List (ℤ × ℤ × ℚ)).map (fun e => e.2.2)).sum = 0 from rfl, Graph.size]
    ring

/-- Witness for C7 at the spec's induced-graph example: `gQuad` with
communities `{0,1 -> 10; 2,3 -> 11}`, queried at the cross pair `(10, 11)`. -/
theorem claim7_induced_graph_witness :
    (inducedGraph pQuad gQuad).nodes = (pQuad.map Prod.snd).dedup
      ∧ (inducedGraph pQuad gQuad).edgeWeight 10 11 = specInducedWeight gQuad pQuad 10 11
      ∧ (inducedGraph pQuad gQuad).size = gQuad.size :=
  claim7_induced_graph gQuad pQuad 10 11 (by decide)

theorem sum_ones {α : Type} (es : List α) (f : α → ℚ) (h : ∀ e ∈ es, f e = 1) :
    (es.map f).sum = (es.length : ℚ) := by
  induction es with
  | nil => simp
  | cons e es ih =>
    simp only [List.map_cons, List.sum_cons, List.length_cons, h e (List.mem_cons_self e es)]
    rw [ih (fun q hq => h q (List.mem_cons_of_mem e hq))]
    push_cast
    ring

theorem filter_length_split {α : Type} (q : α → Prop) [DecidablePred q] (es : List α) :
    es.length = (es.filter (fun e => decide (q e))).length
      + (es.filter (fun e => decide (¬ q e))).length := by
  induction es with
  | nil => rfl
  | cons e es ih =>
    by_cases h : q e
    · simp only [List.filter_cons, decide_eq_true_eq, if_pos h, if_neg (not_not.mpr h),
        List.length_cons, ih]
      omega
    · simp only [List.filter_cons, decide_eq_true_eq, if_neg h, if_pos h,
        List.length_cons, ih]
      omega

/-- Counterexample to C8 as stated: on `gWeighted` (an inter-community edge of
weight 3 and an intra-community edge of weight 1), the default
`estimate_mu(graph, partition)` returns `1/2` (one of its two edges crosses
communities, weights ignored), while the weighted fraction `(E - E_in)/E` of
the claim equals `3/4`. -/
theorem claim8_counterexample :
    estimateMu rlog0 gWeighted pWeighted none none = 1 / 2
      ∧ (gWeighted.size - intraWeight gWeighted pWeighted) / gWeighted.size = 3 / 4
      ∧ ¬ estimateMu rlog0 gWeighted pWeighted none none
          = (gWeighted.size - intraWeight gWeighted pWeighted) / gWeighted.size := by
  have h1 : estimateMu rlog0 gWeighted pWeighted none none
      = ((gWeighted.edges.filter (fun e =>
          decide (¬ dget pWeighted e.1 0 = dget pWeighted e.2.1 0))).length : ℚ)
        / (gWeighted.numberOfEdges : ℚ) := rfl
  have h2 : ((gWeighted.edges.filter (fun e =>
      decide (¬ dget pWeighted e.1 0 = dget pWeighted e.2.1 0))).length : ℚ)
        / (gWeighted.numberOfEdges : ℚ) = 1 / 2 := by
    norm_num [gWeighted, pWeighted, dget, Graph.numberOfEdges]
  have h3 : (gWeighted.size - intraWeight gWeighted pWeighted) / gWeighted.size = 3 / 4 := by
    norm_num [intraWeight, Graph.size, dget, gWeighted, pWeighted]
  refine ⟨h1.trans h2, h3, ?_⟩
  rw [h1.trans h2, h3]
  norm_num

/-- C8 amended: with no `current_mu` and no model given, `estimate_mu` returns
the fraction of the number of edges joining distinct communities —
`(#cross-community edges) / (#edges)`, weights ignored — which coincides with
the claimed `(E - E_in)/E` exactly when every edge weight is 1. -/
theorem claim8_estimate_mu_counts (rlog : ℚ → ℚ) (g : Graph) (p : Pt)
    (hunit : ∀ e ∈ g.edges, e.2.2 = 1) (hne : ¬ g.edges = []) :
    estimateMu rlog g p none none
        = ((g.edges.filter (fun e =>
            decide (¬ dget p e.1 0 = dget p e.2.1 0))).length : ℚ)
          / (g.numberOfEdges : ℚ)
      ∧ estimateMu rlog g p none none = (g.size - intraWeight g p) / g.size := by
  have h1 : estimateMu rlog g p none none
      = ((g.edges.filter (fun e =>
          decide (¬ dget p e.1 0 = dget p e.2.1 0))).length : ℚ)
        / (g.numberOfEdges : ℚ) := rfl
  refine ⟨h1, ?_⟩
  have hsize : g.size = (g.edges.length : ℚ) :=
    sum_ones g.edges (fun e => e.2.2) hunit
  have hintra : intraWeight g p
      = ((g.edges.filter (fun e => decide (dget p e.1 0 = dget p e.2.1 0))).length : ℚ) := by
    apply sum_ones
    intro e he
    exact hunit e (List.mem_of_mem_filter he)
  have hsplit := filter_length_split (fun e : ℤ × ℤ × ℚ =>
    dget p e.1 0 = dget p e.2.1 0) g.edges
  rw [h1, hsize, hintra, Graph.numberOfEdges]
  congr 1
  rw [hsplit]
  push_cast
  ring

/-- Witness for the amended C8 at the unit-weight path `gUnit`. -/
theorem claim8_estimate_mu_counts_witness :
    estimateMu rlog0 gUnit pUnit none none
        = ((gUnit.edges.filter (fun e =>
            decide (¬ dget pUnit e.1 0 = dget pUnit e.2.1 0))).length : ℚ)
          / (gUnit.numberOfEdges : ℚ)
      ∧ estimateMu rlog0 gUnit pUnit none none
        = (gUnit.size - intraWeight gUnit pUnit) / gUnit.size :=
  claim8_estimate_mu_counts rlog0 gUnit pUnit (by decide) (by decide)

theorem crossTab_eval : crossTab pCmp1 pCmp2 = (4, 4, 4, 4) := by decide

theorem eta_half_pairs (l : List ℤ) (h : l.dedup = [0, 1])
    (hlen : l.length = 4)
    (hc0 : (l.filter (fun q => decide (q = 0))).length = 2)
    (hc1 : (l.filter (fun q => decide (q = 1))).length = 2) :
    eta l = Real.log 2 := by
  rw [eta]
  rw [if_neg (by omega), h]
  norm_num [hc0, hc1, hlen]
  rw [show ((1 : ℝ) / 2) = (2 : ℝ)⁻¹ from one_div 2, Real.log_inv]
  ring

theorem eta_x_eval : eta ([0, 0, 1, 1] : List ℤ) = Real.log 2 :=
  eta_half_pairs _ (by decide) (by decide) (by decide) (by decide)

theorem eta_y_eval : eta ([0, 1, 0, 1] : List ℤ) = Real.log 2 :=
  eta_half_pairs _ (by decide) (by decide) (by decide) (by decide)

theorem nmi_eval : nmi ([0, 0, 1, 1] : List ℤ) ([0, 1, 0, 1] : List ℤ) = 0 := by
  have hne0 : ¬ (eta ([0, 0, 1, 1] : List ℤ) * eta ([0, 1, 0, 1] : List ℤ) = 0) := by
    rw [eta_x_eval, eta_y_eval]
    have hp : (0 : ℝ) < Real.log 2 := Real.log_pos one_lt_two
    exact (mul_pos hp hp).ne'
  simp only [nmi]
  rw [if_neg hne0]
  norm_num [Real.log_one]

theorem cmp_rand_eval : (comparePartitions pCmp1 pCmp2).rand = 1 / 2 := by
  simp only [comparePartitions]
  rw [crossTab_eval]
  norm_num

theorem cmp_jaccard_eval : (comparePartitions pCmp1 pCmp2).jaccard = 1 / 3 := by
  simp only [comparePartitions]
  rw [crossTab_eval]
  norm_num

theorem cmp_nmi_eval : (comparePartitions pCmp1 pCmp2).nmi = 0 := by
  simp only [comparePartitions]
  rw [show sortedVals pCmp1 = ([0, 0, 1, 1] : List ℤ) from by decide,
    show sortedVals pCmp2 = ([0, 1, 0, 1] : List ℤ) from by decide, nmi_eval]

/-- Counterexample to C4 as stated: on `P1 = {a:0,b:0,c:1,d:1}` and
`P2 = {a:0,b:1,c:0,d:1}` the code's `compare_partitions` does not return
`rand = 1/3, jaccard = 0, nmi = 0`: its cross-tabulation counts ordered
vertex pairs including each vertex paired with itself (`a00 = Σ common²`
etc.), so `rand = 1/2` and `jaccard = 1/3`. -/
theorem claim4_counterexample :
    ¬ ((comparePartitions pCmp1 pCmp2).rand = 1 / 3
        ∧ (comparePartitions pCmp1 pCmp2).jaccard = 0
        ∧ (comparePartitions pCmp1 pCmp2).nmi = 0) := by
  rintro ⟨hr, _, _⟩
  rw [cmp_rand_eval] at hr
  norm_num at hr

/-- C4 amended: on `P1 = {a:0,b:0,c:1,d:1}` and `P2 = {a:0,b:1,c:0,d:1}` the
code's `compare_partitions` returns `rand = 1/2`, `jaccard = 1/3` and
`nmi = 0` (the self-pair/ordered-pair counting of its cross-tabulation shifts
Rand from the textbook 1/3 to 1/2 and Jaccard from 0 to 1/3; the NMI value 0
agrees with the claim). -/
theorem claim4_compare_partitions :
    (comparePartitions pCmp1 pCmp2).rand = 1 / 2
      ∧ (comparePartitions pCmp1 pCmp2).jaccard = 1 / 3
      ∧ (comparePartitions pCmp1 pCmp2).nmi = 0 :=
  ⟨cmp_rand_eval, cmp_jaccard_eval, cmp_nmi_eval⟩
